import Mathlib

/-!
Shallow embedding of the OpenCL Kraskov (conditional) mutual-information
estimators of IDTxl: `src/idtxl/estimators_opencl.py` (classes
`OpenCLKraskovMI` and `OpenCLKraskovCMI`) and the aggregation formula of
`src/idtxl/estimators_cmi.py` (`opencl_kraskov`).

Modelling conventions:
* Data coordinates are rationals (`ℚ`); a variable is a list of rows
  (`List (List ℚ)`), row count = number of realisations.
* The digamma function (imported from scipy in the source) is an abstract
  parameter `ψ : ℕ → ℚ`: the estimators only ever apply it to natural
  numbers (`kraskov_k`, the chunk length, neighbour counts plus one).
* Randomness drawn from `numpy.random` is passed in explicitly: a
  `RunRand` bundle of streams per GPU sub-run.  Determinism claims become
  stream-independence statements.
* The two OpenCL kernels (`gpuKnnKernelNoIdx.cl`) and the `GPUKraskov`
  base class (`estimators_gpu.py`) belong to the repository but are not
  among the sources verified here; every definition derived from them
  carries a doc comment starting `Modelled from the spec:`.
-/

/-- Chebyshev (max-coordinate) distance between two points, the metric used
by both device kernels. -/
def chebDist (a b : List ℚ) : ℚ :=
  (List.zipWith (fun x y => |x - y|) a b).foldr max 0

/-- Insert a value into an ascending list, keeping it sorted. -/
def insortQ (x : ℚ) : List ℚ → List ℚ
  | [] => [x]
  | y :: ys => if x ≤ y then x :: y :: ys else y :: insortQ x ys

/-- Insertion sort, ascending. -/
def isortQ (l : List ℚ) : List ℚ := l.foldr insortQ []

/-- k-th smallest element of a list (1-based); `0` when the list has fewer
than `k` elements. -/
def kthSmallest (l : List ℚ) (k : ℕ) : ℚ := (isortQ l).getD (k - 1) 0

/-- Modelled from the spec: candidate distances scanned by the k-NN kernel
`kernelKNNshared` of `gpuKnnKernelNoIdx.cl` (kernel source not among the
verified files).  For point `i` of one trial-chunk: the Chebyshev distance
to every other point of the same trial-chunk whose time index differs from
`i` by more than the Theiler window `t` (§4.5 of the spec). -/
def neighborDists (chunk : List (List ℚ)) (t i : ℕ) : List ℚ :=
  ((List.range chunk.length).filter (fun j => decide (t < Nat.dist i j))).map
    (fun j => chebDist (chunk.getD i []) (chunk.getD j []))

/-- Modelled from the spec: distance from point `i` to its `kk`-th nearest
admissible neighbour inside one trial-chunk (the k-NN kernel's output for
neighbour rank `kk`). -/
def knnDistChunk (chunk : List (List ℚ)) (kk t i : ℕ) : ℚ :=
  kthSmallest (neighborDists chunk t i) kk

/-- Modelled from the spec: the range-search kernel `kernelBFRSAllshared`
counts, for point `i` of one trial-chunk, the other points of the same
trial-chunk outside the Theiler window whose distance in the given marginal
subspace is at most the supplied radius `r` (§4.6 of the spec). -/
def rangeCountChunk (chunk : List (List ℚ)) (t i : ℕ) (r : ℚ) : ℕ :=
  (((List.range chunk.length).filter (fun j => decide (t < Nat.dist i j))).filter
    (fun j => decide (chebDist (chunk.getD j []) (chunk.getD i []) ≤ r))).length

/-- Rows `[c*cl, (c+1)*cl)` of a flat point list: trial-chunk `c` for chunk
length `cl`.  The kernels confine neighbour candidates to one trial-chunk
by exactly this index arithmetic (§4.3 of the spec). -/
def chunkOf (ps : List (List ℚ)) (cl c : ℕ) : List (List ℚ) :=
  (ps.drop (c * cl)).take cl

/-- Modelled from the spec: per-point k-NN radius over a flat (padded,
chunk-concatenated) point list; point `i` lives in trial-chunk `i / cl` at
within-chunk position `i % cl`. -/
def knnRadius (ps : List (List ℚ)) (cl kk t i : ℕ) : ℚ :=
  knnDistChunk (chunkOf ps cl (i / cl)) kk t (i % cl)

/-- Modelled from the spec: per-point range-search count over a flat point
list, same index arithmetic as `knnRadius`. -/
def rangeCount (ps : List (List ℚ)) (cl t i : ℕ) (r : ℚ) : ℕ :=
  rangeCountChunk (chunkOf ps cl (i / cl)) t (i % cl) r

/-- Modelled from the spec: the flat distance buffer copied back from the
device.  `d_vecradius` is the sub-region at float offset
`(kraskov_k - 1) * signallength_padded` of `d_distances`
(`estimators_opencl.py` lines 300-302), so the buffer holds `kraskov_k`
blocks of `signallength_padded` entries, block `j` being the distances to
the `(j+1)`-th nearest neighbour. -/
def distancesFlat (ps : List (List ℚ)) (cl kk t npad : ℕ) : List ℚ :=
  (List.range (kk * npad)).map (fun m =>
    knnDistChunk (chunkOf ps cl ((m % npad) / cl)) (m / npad + 1) t ((m % npad) % cl))

/-- `pad_size` of `_estimate_single_run`: number of synthetic rows appended
so that the row count becomes a multiple of the alignment boundary 1024
(`int(np.ceil(signallength/1024)) * 1024 - signallength`). -/
def pad_size (signallength : ℕ) : ℕ :=
  ((signallength + 1023) / 1024) * 1024 - signallength

/-- The synthetic padding rows: sentinel value `999999` plus `0.1` times a
uniform draw (`999999 + 0.1 * np.random.rand(pad_size, dim)`), the draw
passed in as an explicit stream `jit`. -/
def padRows (psize dim : ℕ) (jit : ℕ → ℕ → ℚ) : List (List ℚ) :=
  (List.range psize).map (fun r =>
    (List.range dim).map (fun c => 999999 + (1 / 10) * jit r c))

/-- `np.vstack([var, 999999 + 0.1 * np.random.rand(pad_size, dim)])`. -/
def pad_var (var : List (List ℚ)) (dim : ℕ) (jit : ℕ → ℕ → ℚ) : List (List ℚ) :=
  var ++ padRows (pad_size var.length) dim jit

/-- `np.hstack`: column-wise concatenation of two row lists. -/
def hstack2 (a b : List (List ℚ)) : List (List ℚ) := List.zipWith (· ++ ·) a b

/-- Indexed map starting at a given index (used to model elementwise
operations on numpy arrays whose entries are addressed by position). -/
def mapIdxFrom (f : ℕ → α → β) : ℕ → List α → List β
  | _, [] => []
  | i, a :: as => f i a :: mapIdxFrom f (i + 1) as

/-- `pointset += np.random.normal(scale=noise_level, size=pointset.shape)`,
executed only when `noise_level > 0`; the standard-normal draw for entry
`(i, c)` is `g i c`, scaled by `lvl`. -/
def addNoise (ps : List (List ℚ)) (g : ℕ → ℕ → ℚ) (lvl : ℚ) : List (List ℚ) :=
  if 0 < lvl then
    mapIdxFrom (fun i row => mapIdxFrom (fun c x => x + lvl * g i c) 0 row) 0 ps
  else ps

/-- Columns `[off, off + dim)` of a row: a marginal view.  The device code
realises these views as buffer sub-regions over the transposed point set
(`get_sub_region` in `_estimate_single_run`). -/
def colSlice (off dim : ℕ) (row : List ℚ) : List ℚ := (row.drop off).take dim

/-- Random streams consumed by one GPU sub-run (`_estimate_single_run`):
uniform jitter for each padded array and the Gaussian dither for the
assembled point set. -/
structure RunRand where
  jit1 : ℕ → ℕ → ℚ
  jit2 : ℕ → ℕ → ℚ
  jitc : ℕ → ℕ → ℚ
  gauss : ℕ → ℕ → ℚ

/-- The settings dictionary: `none` models an absent key.  Settings are
handed to the estimator constructor and resolved there via `setdefault`. -/
structure SettingsDict where
  gpuid : Option ℕ := none
  kraskov_k : Option ℕ := none
  theiler_t : Option ℕ := none
  noise_level : Option ℚ := none
  debug : Option Bool := none
  return_counts : Option Bool := none
  lag_mi : Option ℕ := none
deriving DecidableEq

/-- Modelled from the spec: `GPUKraskov.__init__` (`estimators_gpu.py`, not
among the verified files) validates the settings dict, copies it, and
applies the documented defaults via `setdefault` (`gpuid=0`, `kraskov_k=4`,
`theiler_t=0`, `noise_level=1e-8`, `debug=False`, `return_counts=False`);
the settings are immutable for the instance's lifetime (§3 of the spec). -/
def GPUKraskov.applyDefaults (d : SettingsDict) : SettingsDict :=
  { gpuid := some (d.gpuid.getD 0),
    kraskov_k := some (d.kraskov_k.getD 4),
    theiler_t := some (d.theiler_t.getD 0),
    noise_level := some (d.noise_level.getD (1 / 100000000)),
    debug := some (d.debug.getD false),
    return_counts := some (d.return_counts.getD false),
    lag_mi := d.lag_mi }

/-- Resolved `kraskov_k` (`self.settings['kraskov_k']`). -/
def SettingsDict.kkR (d : SettingsDict) : ℕ := d.kraskov_k.getD 4

/-- Resolved `theiler_t`. -/
def SettingsDict.theilerR (d : SettingsDict) : ℕ := d.theiler_t.getD 0

/-- Resolved `noise_level`. -/
def SettingsDict.noiseR (d : SettingsDict) : ℚ := d.noise_level.getD (1 / 100000000)

/-- Resolved `debug` flag. -/
def SettingsDict.debugR (d : SettingsDict) : Bool := d.debug.getD false

/-- Resolved `return_counts` flag. -/
def SettingsDict.rcR (d : SettingsDict) : Bool := d.return_counts.getD false

/-- Resolved `lag_mi`. -/
def SettingsDict.lagR (d : SettingsDict) : ℕ := d.lag_mi.getD 0

/-- The MI estimator instance: its construction-time settings. -/
structure OpenCLKraskovMI where
  settings : SettingsDict
deriving DecidableEq

/-- The CMI estimator instance: its construction-time settings. -/
structure OpenCLKraskovCMI where
  settings : SettingsDict
deriving DecidableEq

/-- `OpenCLKraskovMI.__init__`: parent construction (defaults on a copy of
the dict), then `self.settings.setdefault('lag_mi', 0)`. -/
def OpenCLKraskovMI.new (d : SettingsDict) : OpenCLKraskovMI :=
  ⟨{ GPUKraskov.applyDefaults d with
      lag_mi := some ((GPUKraskov.applyDefaults d).lag_mi.getD 0) }⟩

/-- `OpenCLKraskovCMI.__init__`: parent construction only. -/
def OpenCLKraskovCMI.new (d : SettingsDict) : OpenCLKraskovCMI :=
  ⟨GPUKraskov.applyDefaults d⟩

/-- Errors surfaced by `estimate`: `shapeMismatch` for the realisation-count
and chunk-divisibility validation, `unboundLocal` for Python's
`UnboundLocalError` when a return value reads a never-assigned local. -/
inductive EstError where
  | shapeMismatch
  | unboundLocal
deriving DecidableEq

/-- Modelled from the spec: `GPUKraskov._add_mi_lag`: for a positive lag,
drop the last `lag` rows of the first variable and the first `lag` rows of
the second, aligning both to the overlapping range (§4.1 of the spec). -/
def add_mi_lag (lag : ℕ) (var1 var2 : List (List ℚ)) :
    List (List ℚ) × List (List ℚ) :=
  if 0 < lag then (var1.take (var1.length - lag), var2.drop lag)
  else (var1, var2)

/-- Modelled from the spec: `GPUKraskov._calculate_mi` (§4.7 of the spec):
per trial-chunk, `ψ(k) + ψ(N) − ⟨ψ(n_x+1) + ψ(n_y+1)⟩` with `N` the chunk
length and the mean taken over the points of that trial-chunk. -/
def calculate_mi (ψ : ℕ → ℚ) (kk n_chunks cl : ℕ) (c1 c2 : ℕ → ℕ) : List ℚ :=
  (List.range n_chunks).map (fun c =>
    ψ kk + ψ cl -
      (((List.range cl).map (fun i =>
        ψ (c1 (c * cl + i) + 1) + ψ (c2 (c * cl + i) + 1))).sum) / (cl : ℚ))

/-- Modelled from the spec: `GPUKraskov._calculate_cmi` (§4.7 of the spec):
per trial-chunk, `ψ(k) + ⟨ψ(n_z+1) − ψ(n_xz+1) − ψ(n_yz+1)⟩`, the mean
taken over the points of that trial-chunk. -/
def calculate_cmi (ψ : ℕ → ℚ) (kk n_chunks cl : ℕ) (ccnd csrc ctgt : ℕ → ℕ) :
    List ℚ :=
  (List.range n_chunks).map (fun c =>
    ψ kk +
      (((List.range cl).map (fun i =>
        ψ (ccnd (c * cl + i) + 1) - ψ (csrc (c * cl + i) + 1) -
          ψ (ctgt (c * cl + i) + 1))).sum) / (cl : ℚ))

/-- The padded, concatenated, optionally dithered point set assembled by
`OpenCLKraskovMI._estimate_single_run` (lines 244-258): pad each variable
to a multiple of 1024 rows, `hstack`, then add Gaussian noise when
`noise_level > 0`. -/
def mi_pointset (var1 var2 : List (List ℚ)) (d1 d2 : ℕ) (rnd : RunRand)
    (lvl : ℚ) : List (List ℚ) :=
  addNoise (hstack2 (pad_var var1 d1 rnd.jit1) (pad_var var2 d2 rnd.jit2))
    rnd.gauss lvl

/-- The point set assembled by `OpenCLKraskovCMI._estimate_single_run`
(lines 516-530): variable order `var1, conditional, var2`, so that buffer
sub-regions alias the `var1+cond`, `cond+var2` and `cond` marginals. -/
def cmi_pointset (var1 var2 cond : List (List ℚ)) (d1 d2 dc : ℕ)
    (rnd : RunRand) (lvl : ℚ) : List (List ℚ) :=
  addNoise
    (hstack2 (pad_var var1 d1 rnd.jit1)
      (hstack2 (pad_var cond dc rnd.jitc) (pad_var var2 d2 rnd.jit2)))
    rnd.gauss lvl

/-- Result of one MI GPU sub-run: the per-chunk MI values, plus (debug mode
only) the truncated distance buffer and the two truncated count arrays. -/
structure MIRunResult where
  mi : List ℚ
  dbg : Option (List ℚ × List ℕ × List ℕ)
deriving DecidableEq

/-- `OpenCLKraskovMI._estimate_single_run`: assemble the padded point set,
run the k-NN search in the full space, range searches in both marginal
subspaces, and aggregate with digamma statistics.  Debug mode also returns
the raw distances and counts, truncated to the true (pre-padding) length
(`[:signallength]`). -/
def estimate_single_run_mi (ψ : ℕ → ℚ) (d : SettingsDict) (rnd : RunRand)
    (var1 var2 : List (List ℚ)) (d1 d2 n_chunks : ℕ) : MIRunResult :=
  let signallength := var1.length
  let chunklength := signallength / n_chunks
  let npad := signallength + pad_size signallength
  let ps := mi_pointset var1 var2 d1 d2 rnd d.noiseR
  let kk := d.kkR
  let t := d.theilerR
  let rad : ℕ → ℚ := fun i => knnRadius ps chunklength kk t i
  let c1 : ℕ → ℕ := fun i =>
    rangeCount (ps.map (colSlice 0 d1)) chunklength t i (rad i)
  let c2 : ℕ → ℕ := fun i =>
    rangeCount (ps.map (colSlice d1 d2)) chunklength t i (rad i)
  let mi := calculate_mi ψ kk n_chunks chunklength c1 c2
  if d.debugR then
    { mi := mi,
      dbg := some ((distancesFlat ps chunklength kk t npad).take signallength,
                   ((List.range npad).map c1).take signallength,
                   ((List.range npad).map c2).take signallength) }
  else { mi := mi, dbg := none }

/-- Result of one CMI GPU sub-run: per-chunk CMI values, plus (debug mode)
the truncated distances and the three truncated count arrays in source
order `(count_cnd, count_src, count_tgt)`. -/
structure CMIRunResult where
  cmi : List ℚ
  dbg : Option (List ℚ × List ℕ × List ℕ × List ℕ)
deriving DecidableEq

/-- `OpenCLKraskovCMI._estimate_single_run` for a present conditional:
k-NN search in the full space, range searches in the `var1+cond`,
`cond+var2` and `cond` marginals, digamma aggregation. -/
def estimate_single_run_cmi (ψ : ℕ → ℚ) (d : SettingsDict) (rnd : RunRand)
    (var1 var2 cond : List (List ℚ)) (d1 d2 dc n_chunks : ℕ) : CMIRunResult :=
  let signallength := var1.length
  let chunklength := signallength / n_chunks
  let npad := signallength + pad_size signallength
  let ps := cmi_pointset var1 var2 cond d1 d2 dc rnd d.noiseR
  let kk := d.kkR
  let t := d.theilerR
  let rad : ℕ → ℚ := fun i => knnRadius ps chunklength kk t i
  let csrc : ℕ → ℕ := fun i =>
    rangeCount (ps.map (colSlice 0 (d1 + dc))) chunklength t i (rad i)
  let ctgt : ℕ → ℕ := fun i =>
    rangeCount (ps.map (colSlice d1 (dc + d2))) chunklength t i (rad i)
  let ccnd : ℕ → ℕ := fun i =>
    rangeCount (ps.map (colSlice d1 dc)) chunklength t i (rad i)
  let cmi := calculate_cmi ψ kk n_chunks chunklength ccnd csrc ctgt
  if d.debugR then
    { cmi := cmi,
      dbg := some ((distancesFlat ps chunklength kk t npad).take signallength,
                   ((List.range npad).map ccnd).take signallength,
                   ((List.range npad).map csrc).take signallength,
                   ((List.range npad).map ctgt).take signallength) }
  else { cmi := cmi, dbg := none }

/-- Value returned by `OpenCLKraskovMI.estimate`: concatenated per-chunk MI
values and, when `return_counts` is set, the concatenated debug arrays. -/
structure MIEstimateResult where
  mi : List ℚ
  counts : Option (List ℚ × List ℕ × List ℕ)
deriving DecidableEq

/-- Value returned by `OpenCLKraskovCMI.estimate` on the conditional path. -/
structure CMIEstimateResult where
  cmi : List ℚ
  counts : Option (List ℚ × List ℕ × List ℕ × List ℕ)
deriving DecidableEq

/-- `OpenCLKraskovMI.estimate` (lines 143-209): validate shapes (the
validation itself is modelled from the spec, since `_prepare_data` lives in
`estimators_gpu.py`, which is not among the verified files: equal
realisation counts and chunk divisibility, else ShapeMismatch, never
truncating rows, per §4.1 and §8), apply the MI lag, then loop over
sub-runs of `chunks_per_run` trial-chunks
(`for r in range(0, n_chunks, chunks_per_run)`), concatenating each
sub-run's results.  The debug locals (`distances`, `count_var1`,
`count_var2`) are assigned only under the `debug` flag; returning them via
`return_counts` without `debug` raises `UnboundLocalError`.
`chunks_per_run` is the value computed by `GPUKraskov._get_chunks_per_run`
from the device memory budget; it is passed in as a parameter here. -/
def OpenCLKraskovMI.estimate (est : OpenCLKraskovMI) (ψ : ℕ → ℚ)
    (rnd : ℕ → RunRand) (var1 var2 : List (List ℚ))
    (d1 d2 n_chunks chunks_per_run : ℕ) : Except EstError MIEstimateResult :=
  if var1.length = var2.length then
   if var1.length % n_chunks = 0 then
    let s := est.settings
    let vs := add_mi_lag s.lagR var1 var2
    let v1 := vs.1
    let v2 := vs.2
    let chunklength := v1.length / n_chunks
    let nRuns := (n_chunks + chunks_per_run - 1) / chunks_per_run
    let runs := (List.range nRuns).map (fun q =>
      let r := q * chunks_per_run
      let s_run := min (r + chunks_per_run) n_chunks - r
      estimate_single_run_mi ψ s (rnd q)
        ((v1.drop (r * chunklength)).take (s_run * chunklength))
        ((v2.drop (r * chunklength)).take (s_run * chunklength)) d1 d2 s_run)
    let mi := (runs.map (fun ro => ro.mi)).flatten
    if s.debugR then
      let dists := (runs.map (fun ro => (ro.dbg.getD ([], [], [])).1)).flatten
      let cnt1 := (runs.map (fun ro => (ro.dbg.getD ([], [], [])).2.1)).flatten
      let cnt2 := (runs.map (fun ro => (ro.dbg.getD ([], [], [])).2.2)).flatten
      if s.rcR then .ok { mi := mi, counts := some (dists, cnt1, cnt2) }
      else .ok { mi := mi, counts := none }
    else
      if s.rcR then .error .unboundLocal
      else .ok { mi := mi, counts := none }
   else .error .shapeMismatch
  else .error .shapeMismatch

/-- The conditional path of `OpenCLKraskovCMI.estimate` (lines 420-468):
validation, then the sub-run loop over `estimate_single_run_cmi`. -/
def OpenCLKraskovCMI.estimateCond (est : OpenCLKraskovCMI) (ψ : ℕ → ℚ)
    (rnd : ℕ → RunRand) (var1 var2 cond : List (List ℚ))
    (d1 d2 dc n_chunks chunks_per_run : ℕ) :
    Except EstError CMIEstimateResult :=
  if var1.length = var2.length ∧ var1.length = cond.length then
   if var1.length % n_chunks = 0 then
    let s := est.settings
    let chunklength := var1.length / n_chunks
    let nRuns := (n_chunks + chunks_per_run - 1) / chunks_per_run
    let runs := (List.range nRuns).map (fun q =>
      let r := q * chunks_per_run
      let s_run := min (r + chunks_per_run) n_chunks - r
      estimate_single_run_cmi ψ s (rnd q)
        ((var1.drop (r * chunklength)).take (s_run * chunklength))
        ((var2.drop (r * chunklength)).take (s_run * chunklength))
        ((cond.drop (r * chunklength)).take (s_run * chunklength))
        d1 d2 dc s_run)
    let cmi := (runs.map (fun ro => ro.cmi)).flatten
    if s.debugR then
      let dists :=
        (runs.map (fun ro => (ro.dbg.getD ([], [], [], [])).1)).flatten
      let ccnd :=
        (runs.map (fun ro => (ro.dbg.getD ([], [], [], [])).2.1)).flatten
      let csrc :=
        (runs.map (fun ro => (ro.dbg.getD ([], [], [], [])).2.2.1)).flatten
      let ctgt :=
        (runs.map (fun ro => (ro.dbg.getD ([], [], [], [])).2.2.2)).flatten
      if s.rcR then .ok { cmi := cmi, counts := some (dists, ccnd, csrc, ctgt) }
      else .ok { cmi := cmi, counts := none }
    else
      if s.rcR then .error .unboundLocal
      else .ok { cmi := cmi, counts := none }
   else .error .shapeMismatch
  else .error .shapeMismatch

/-- `OpenCLKraskovCMI.estimate` (lines 387-468): with no conditional it
constructs an `OpenCLKraskovMI` from `self.settings` and delegates
(lines 415-418); otherwise it runs the CMI pipeline.  The dynamic return
shape (three debug arrays on the MI path, four on the CMI path) is
modelled as a sum. -/
def OpenCLKraskovCMI.estimate (est : OpenCLKraskovCMI) (ψ : ℕ → ℚ)
    (rnd : ℕ → RunRand) (var1 var2 : List (List ℚ))
    (conditional : Option (List (List ℚ))) (d1 d2 dc n_chunks chunks_per_run : ℕ) :
    Except EstError (MIEstimateResult ⊕ CMIEstimateResult) :=
  match conditional with
  | none =>
    (OpenCLKraskovMI.estimate (OpenCLKraskovMI.new est.settings) ψ rnd
      var1 var2 d1 d2 n_chunks chunks_per_run).map Sum.inl
  | some cond =>
    (est.estimateCond ψ rnd var1 var2 cond d1 d2 dc n_chunks
      chunks_per_run).map Sum.inr

/-- The aggregation step of `opencl_kraskov` in `src/idtxl/estimators_cmi.py`
(lines 128-131): `digamma(k) + np.mean(digamma(count_conditional + 1) -
digamma(count_var1_conditional + 1) - digamma(count_var2_conditional + 1))`,
the mean running over the whole (equal-length) count arrays. -/
def opencl_kraskov_cmi (ψ : ℕ → ℚ) (kraskov_k : ℕ)
    (count_conditional count_var1_conditional count_var2_conditional : List ℕ) :
    ℚ :=
  ψ kraskov_k +
    ((count_conditional.zip (count_var1_conditional.zip count_var2_conditional)).map
      (fun p => ψ (p.1 + 1) - ψ (p.2.1 + 1) - ψ (p.2.2 + 1))).sum /
      (count_conditional.length : ℚ)

/-- The in-place noise step of `opencl_kraskov` in
`src/idtxl/estimators_cmi.py` (lines 70-72):
`var += np.random.normal(size=var.shape) * noise_level`, executed
unconditionally (no guard on `noise_level`). -/
def opencl_kraskov_add_noise (var : List (List ℚ)) (g : ℕ → ℕ → ℚ)
    (noise_level : ℚ) : List (List ℚ) :=
  mapIdxFrom (fun i row => mapIdxFrom (fun c x => x + g i c * noise_level) 0 row)
    0 var

/-- Description of the point-set construction following the claim's (and
spec §4.1's) wording, for comparison with the source construction
`mi_pointset`: noise is added to every input variable array before the
arrays are concatenated, so the padding rows appended afterwards carry no
noise. -/
def mi_pointset_claim (var1 var2 : List (List ℚ)) (d1 d2 : ℕ) (rnd : RunRand)
    (lvl : ℚ) : List (List ℚ) :=
  hstack2 (pad_var (addNoise var1 rnd.gauss lvl) d1 rnd.jit1)
    (pad_var (addNoise var2 rnd.gauss lvl) d2 rnd.jit2)
/-! ### List and arithmetic helper lemmas -/

theorem getD_map_range {α : Type} (f : ℕ → α) {r n : ℕ} (h : r < n) (d : α) :
    ((List.range n).map f).getD r d = f r := by
  rw [List.getD_eq_getElem?_getD, List.getElem?_map, List.getElem?_range h]
  rfl

theorem chunkOf_zipWith (f : List ℚ → List ℚ → List ℚ) (a b : List (List ℚ))
    (cl c : ℕ) :
    chunkOf (List.zipWith f a b) cl c =
      List.zipWith f (chunkOf a cl c) (chunkOf b cl c) := by
  unfold chunkOf
  rw [List.drop_zipWith, List.take_zipWith]

theorem chunkOf_map (f : List ℚ → List ℚ) (l : List (List ℚ)) (cl c : ℕ) :
    chunkOf (l.map f) cl c = (chunkOf l cl c).map f := by
  unfold chunkOf
  rw [← List.map_drop, ← List.map_take]

theorem chunkOf_append {w : List (List ℚ)} (p : List (List ℚ)) {s cl c : ℕ}
    (hw : w.length = s * cl) (hc : c < s) :
    chunkOf (w ++ p) cl c = chunkOf w cl c := by
  unfold chunkOf
  have hex : (c + 1) * cl = c * cl + cl := by ring
  have hcs : (c + 1) * cl ≤ s * cl := Nat.mul_le_mul_right cl hc
  have h1 : c * cl ≤ w.length := by
    rw [hw]
    exact Nat.mul_le_mul_right cl (Nat.le_of_lt hc)
  rw [List.drop_append_of_le_length h1]
  have h2 : cl ≤ (w.drop (c * cl)).length := by
    rw [List.length_drop, hw]
    omega
  rw [List.take_append_of_le_length h2]

theorem chunkOf_take_drop (v : List (List ℚ)) {a s cl c : ℕ} (hc : c < s) :
    chunkOf ((v.drop (a * cl)).take (s * cl)) cl c = chunkOf v cl (a + c) := by
  unfold chunkOf
  rw [List.drop_take, List.drop_drop, List.take_take]
  have hex : (c + 1) * cl = c * cl + cl := by ring
  have hcs : (c + 1) * cl ≤ s * cl := Nat.mul_le_mul_right cl hc
  have h1 : cl ≤ s * cl - c * cl := by omega
  rw [min_eq_left h1]
  congr 1
  ring_nf

theorem length_subrun {v : List (List ℚ)} {a s cl : ℕ}
    (h : (a + s) * cl ≤ v.length) :
    ((v.drop (a * cl)).take (s * cl)).length = s * cl := by
  rw [List.length_take, List.length_drop]
  have hex : (a + s) * cl = a * cl + s * cl := by ring
  omega

theorem addNoise_zero (ps : List (List ℚ)) (g : ℕ → ℕ → ℚ) :
    addNoise ps g 0 = ps := by
  unfold addNoise
  simp

theorem mul_add_div_self {c cl i : ℕ} (h : i < cl) : (c * cl + i) / cl = c := by
  have hcl : 0 < cl := Nat.lt_of_le_of_lt (Nat.zero_le i) h
  rw [Nat.mul_comm, Nat.mul_add_div hcl, Nat.div_eq_of_lt h, Nat.add_zero]

theorem mul_add_mod_self {c cl i : ℕ} (h : i < cl) : (c * cl + i) % cl = i := by
  rw [Nat.mul_comm, Nat.mul_add_mod, Nat.mod_eq_of_lt h]

theorem ceil_div_mul_ge {n cpr : ℕ} (h : 0 < cpr) :
    n ≤ (n + cpr - 1) / cpr * cpr := by
  have h1 := Nat.div_add_mod (n + cpr - 1) cpr
  have h2 := Nat.mod_lt (n + cpr - 1) h
  rw [Nat.mul_comm]
  omega

theorem ceil_div_mul_lt {n cpr : ℕ} (h : 0 < cpr) :
    (n + cpr - 1) / cpr * cpr < n + cpr := by
  have h1 := Nat.div_add_mod (n + cpr - 1) cpr
  have h2 := Nat.mod_lt (n + cpr - 1) h
  rw [Nat.mul_comm]
  omega

theorem runStart_lt {q cpr n : ℕ} (hq : q < (n + cpr - 1) / cpr) (h : 0 < cpr) :
    q * cpr < n := by
  have h1 := Nat.div_add_mod (n + cpr - 1) cpr
  have h2 := Nat.mod_lt (n + cpr - 1) h
  have h4 : cpr * (q + 1) ≤ cpr * ((n + cpr - 1) / cpr) := Nat.mul_le_mul_left cpr hq
  have h6 : cpr * (q + 1) = cpr * q + cpr := by ring
  have h7 : q * cpr = cpr * q := Nat.mul_comm q cpr
  omega

theorem range_mul_blocks {α : Type} (g : ℕ → α) (s cl : ℕ) :
    (List.range (s * cl)).map g =
      ((List.range s).map (fun c =>
        (List.range cl).map (fun i => g (c * cl + i)))).flatten := by
  induction s with
  | zero => simp
  | succ s ih =>
    have h1 : (s + 1) * cl = s * cl + cl := by ring
    rw [h1, List.range_add, List.map_append, List.range_succ, List.map_append,
      List.flatten_append, ih]
    congr 1
    simp [List.map_map, Function.comp_def]

theorem flatten_runs_aux {α : Type} (g : ℕ → List α) (cpr : ℕ) (hcpr : 0 < cpr) :
    ∀ m n : ℕ, n ≤ m * cpr → m * cpr < n + cpr →
    ((List.range m).map (fun q =>
        (List.range (min (q * cpr + cpr) n - q * cpr)).map
          (fun c => g (q * cpr + c)))).flatten.flatten
      = ((List.range n).map g).flatten := by
  intro m
  induction m with
  | zero =>
    intro n h1 _
    have : n = 0 := by omega
    subst this
    simp
  | succ m ih =>
    intro n h1 h2
    have hex : (m + 1) * cpr = m * cpr + cpr := by ring
    have hlow : m * cpr < n := by omega
    rw [List.range_succ, List.map_append, List.flatten_append, List.flatten_append]
    have hlast : min (m * cpr + cpr) n = n := by
      apply min_eq_right
      omega
    have hmid : ∀ q ∈ List.range m,
        (List.range (min (q * cpr + cpr) n - q * cpr)).map (fun c => g (q * cpr + c))
          = (List.range (min (q * cpr + cpr) (m * cpr) - q * cpr)).map
              (fun c => g (q * cpr + c)) := by
      intro q hqm
      rw [List.mem_range] at hqm
      have hq1 : q * cpr + cpr ≤ m * cpr := by
        have hq0 := Nat.mul_le_mul_right cpr hqm
        have hq2 : q.succ * cpr = q * cpr + cpr := Nat.succ_mul q cpr
        omega
      have hq3 : q * cpr + cpr ≤ n := le_trans hq1 (Nat.le_of_lt hlow)
      rw [min_eq_left hq3, min_eq_left hq1]
    rw [List.map_congr_left hmid, ih (m * cpr) (le_refl _) (by omega)]
    have hsplit : n = m * cpr + (n - m * cpr) := by omega
    conv_rhs => rw [hsplit, List.range_add, List.map_append, List.flatten_append]
    congr 1
    simp only [List.map_cons, List.map_nil, List.flatten_cons, List.flatten_nil,
      List.append_nil, hlast]
    simp [List.map_map, Function.comp_def]

theorem flatten_runs {α : Type} (g : ℕ → List α) (cpr n : ℕ) (hcpr : 0 < cpr) :
    ((List.range ((n + cpr - 1) / cpr)).map (fun q =>
        (List.range (min (q * cpr + cpr) n - q * cpr)).map
          (fun c => g (q * cpr + c)))).flatten.flatten
      = ((List.range n).map g).flatten :=
  flatten_runs_aux g cpr hcpr _ n (ceil_div_mul_ge hcpr) (by
    have := ceil_div_mul_lt (n := n) hcpr
    omega)
/-! ### Canonical (stream-free, batching-free) form of the pipelines -/

/-- Trial-chunk `c` of the unpadded MI point set: the rows of both variables
restricted to chunk `c` and concatenated column-wise. -/
def canonMIChunk (v1 v2 : List (List ℚ)) (cl c : ℕ) : List (List ℚ) :=
  hstack2 (chunkOf v1 cl c) (chunkOf v2 cl c)

/-- Trial-chunk `c` of the unpadded CMI point set, variable order
`var1, conditional, var2` as in the source. -/
def canonCMIChunk (v1 v2 vc : List (List ℚ)) (cl c : ℕ) : List (List ℚ) :=
  hstack2 (chunkOf v1 cl c) (hstack2 (chunkOf vc cl c) (chunkOf v2 cl c))

/-- Distance of within-chunk point `i` of trial-chunk `c` to its `kk`-th
admissible neighbour, for an abstract per-chunk data function `ch`. -/
def canonDist (ch : ℕ → List (List ℚ)) (kk t c i : ℕ) : ℚ :=
  knnDistChunk (ch c) kk t i

/-- Neighbour count of within-chunk point `i` of trial-chunk `c` in the
marginal `colSlice off dim`, with the search radius taken from the
full-dimensional chunk. -/
def canonCnt (ch : ℕ → List (List ℚ)) (off dim kk t c i : ℕ) : ℕ :=
  rangeCountChunk ((ch c).map (colSlice off dim)) t i
    (knnDistChunk (ch c) kk t i)

/-- Per-chunk MI value of the canonical pipeline. -/
def canonMIval (ψ : ℕ → ℚ) (ch : ℕ → List (List ℚ)) (d1 d2 kk t cl c : ℕ) : ℚ :=
  ψ kk + ψ cl -
    (((List.range cl).map (fun i =>
      ψ (canonCnt ch 0 d1 kk t c i + 1) +
        ψ (canonCnt ch d1 d2 kk t c i + 1))).sum) / (cl : ℚ)

/-- Per-chunk CMI value of the canonical pipeline. -/
def canonCMIval (ψ : ℕ → ℚ) (ch : ℕ → List (List ℚ))
    (d1 d2 dc kk t cl c : ℕ) : ℚ :=
  ψ kk +
    (((List.range cl).map (fun i =>
      ψ (canonCnt ch d1 dc kk t c i + 1) -
        ψ (canonCnt ch 0 (d1 + dc) kk t c i + 1) -
        ψ (canonCnt ch d1 (dc + d2) kk t c i + 1))).sum) / (cl : ℚ)

theorem take_range_map {α : Type} (f : ℕ → α) {n N : ℕ} (h : n ≤ N) :
    ((List.range N).map f).take n = (List.range n).map f := by
  rw [← List.map_take, List.take_range, min_eq_left h]

theorem div_lt_of_lt_mul {i s cl : ℕ} (hi : i < s * cl) : i / cl < s := by
  have hcl : 0 < cl := by
    rcases Nat.eq_zero_or_pos cl with h | h
    · subst h
      omega
    · exact h
  exact (Nat.div_lt_iff_lt_mul hcl).mpr hi

theorem knnRadius_factor {ps : List (List ℚ)} {ch : ℕ → List (List ℚ)}
    {cl a s : ℕ} (hchunk : ∀ c < s, chunkOf ps cl c = ch (a + c))
    (kk t : ℕ) {i : ℕ} (hi : i < s * cl) :
    knnRadius ps cl kk t i = canonDist ch kk t (a + i / cl) (i % cl) := by
  unfold knnRadius canonDist
  rw [hchunk _ (div_lt_of_lt_mul hi)]

theorem rangeCount_factor {ps : List (List ℚ)} {ch : ℕ → List (List ℚ)}
    {cl a s : ℕ} (hchunk : ∀ c < s, chunkOf ps cl c = ch (a + c))
    (off dim kk t : ℕ) {i : ℕ} (hi : i < s * cl) :
    rangeCount (ps.map (colSlice off dim)) cl t i (knnRadius ps cl kk t i)
      = canonCnt ch off dim kk t (a + i / cl) (i % cl) := by
  unfold rangeCount canonCnt
  rw [chunkOf_map, hchunk _ (div_lt_of_lt_mul hi),
    knnRadius_factor hchunk kk t hi]
  rfl

theorem distancesFlat_take {ps : List (List ℚ)} {ch : ℕ → List (List ℚ)}
    {cl a s : ℕ} (hchunk : ∀ c < s, chunkOf ps cl c = ch (a + c))
    {kk : ℕ} (t : ℕ) (hkk : 0 < kk) :
    (distancesFlat ps cl kk t (s * cl + pad_size (s * cl))).take (s * cl)
      = (List.range (s * cl)).map
          (fun i => canonDist ch 1 t (a + i / cl) (i % cl)) := by
  unfold distancesFlat
  have h1 : s * cl ≤ s * cl + pad_size (s * cl) := Nat.le_add_right _ _
  have h2 : s * cl ≤ kk * (s * cl + pad_size (s * cl)) :=
    le_trans h1 (Nat.le_mul_of_pos_left _ hkk)
  rw [take_range_map _ h2]
  apply List.map_congr_left
  intro i hi
  rw [List.mem_range] at hi
  have hilt : i < s * cl + pad_size (s * cl) := lt_of_lt_of_le hi h1
  rw [Nat.mod_eq_of_lt hilt, Nat.div_eq_of_lt hilt]
  unfold canonDist
  rw [hchunk _ (div_lt_of_lt_mul hi)]

theorem counts_take {cf : ℕ → ℕ} {g : ℕ → ℕ} {s cl : ℕ}
    (h : ∀ i < s * cl, cf i = g i) :
    ((List.range (s * cl + pad_size (s * cl))).map cf).take (s * cl)
      = (List.range (s * cl)).map g := by
  rw [take_range_map _ (Nat.le_add_right _ _)]
  apply List.map_congr_left
  intro i hi
  rw [List.mem_range] at hi
  exact h i hi

theorem calculate_mi_subrun (ψ : ℕ → ℚ) {ps : List (List ℚ)}
    {ch : ℕ → List (List ℚ)} {cl a s : ℕ}
    (hchunk : ∀ c < s, chunkOf ps cl c = ch (a + c)) (kk t d1 d2 : ℕ) :
    calculate_mi ψ kk s cl
        (fun i => rangeCount (ps.map (colSlice 0 d1)) cl t i
          (knnRadius ps cl kk t i))
        (fun i => rangeCount (ps.map (colSlice d1 d2)) cl t i
          (knnRadius ps cl kk t i))
      = (List.range s).map (fun c => canonMIval ψ ch d1 d2 kk t cl (a + c)) := by
  unfold calculate_mi canonMIval
  apply List.map_congr_left
  intro c hc
  rw [List.mem_range] at hc
  beta_reduce
  congr 2
  congr 1
  apply List.map_congr_left
  intro i hi
  rw [List.mem_range] at hi
  have hex : c.succ * cl = c * cl + cl := Nat.succ_mul c cl
  have hlt : c * cl + i < s * cl := by
    have := Nat.mul_le_mul_right cl hc
    omega
  rw [rangeCount_factor hchunk 0 d1 kk t hlt,
    rangeCount_factor hchunk d1 d2 kk t hlt,
    mul_add_div_self hi, mul_add_mod_self hi]

theorem calculate_cmi_subrun (ψ : ℕ → ℚ) {ps : List (List ℚ)}
    {ch : ℕ → List (List ℚ)} {cl a s : ℕ}
    (hchunk : ∀ c < s, chunkOf ps cl c = ch (a + c)) (kk t d1 d2 dc : ℕ) :
    calculate_cmi ψ kk s cl
        (fun i => rangeCount (ps.map (colSlice d1 dc)) cl t i
          (knnRadius ps cl kk t i))
        (fun i => rangeCount (ps.map (colSlice 0 (d1 + dc))) cl t i
          (knnRadius ps cl kk t i))
        (fun i => rangeCount (ps.map (colSlice d1 (dc + d2))) cl t i
          (knnRadius ps cl kk t i))
      = (List.range s).map
          (fun c => canonCMIval ψ ch d1 d2 dc kk t cl (a + c)) := by
  unfold calculate_cmi canonCMIval
  apply List.map_congr_left
  intro c hc
  rw [List.mem_range] at hc
  beta_reduce
  congr 2
  congr 1
  apply List.map_congr_left
  intro i hi
  rw [List.mem_range] at hi
  have hex : c.succ * cl = c * cl + cl := Nat.succ_mul c cl
  have hlt : c * cl + i < s * cl := by
    have := Nat.mul_le_mul_right cl hc
    omega
  rw [rangeCount_factor hchunk d1 dc kk t hlt,
    rangeCount_factor hchunk 0 (d1 + dc) kk t hlt,
    rangeCount_factor hchunk d1 (dc + d2) kk t hlt,
    mul_add_div_self hi, mul_add_mod_self hi]
theorem chunkOf_mi_pointset {v1 v2 : List (List ℚ)} (d1 d2 : ℕ) (rnd : RunRand)
    {a s cl : ℕ} (h1 : (a + s) * cl ≤ v1.length) (h2 : (a + s) * cl ≤ v2.length)
    {c : ℕ} (hc : c < s) :
    chunkOf (mi_pointset ((v1.drop (a * cl)).take (s * cl))
        ((v2.drop (a * cl)).take (s * cl)) d1 d2 rnd 0) cl c
      = canonMIChunk v1 v2 cl (a + c) := by
  unfold mi_pointset canonMIChunk hstack2 pad_var
  rw [addNoise_zero, chunkOf_zipWith,
    chunkOf_append _ (length_subrun h1) hc,
    chunkOf_append _ (length_subrun h2) hc,
    chunkOf_take_drop _ hc, chunkOf_take_drop _ hc]

theorem chunkOf_cmi_pointset {v1 v2 vc : List (List ℚ)} (d1 d2 dc : ℕ)
    (rnd : RunRand) {a s cl : ℕ} (h1 : (a + s) * cl ≤ v1.length)
    (h2 : (a + s) * cl ≤ v2.length) (h3 : (a + s) * cl ≤ vc.length)
    {c : ℕ} (hc : c < s) :
    chunkOf (cmi_pointset ((v1.drop (a * cl)).take (s * cl))
        ((v2.drop (a * cl)).take (s * cl)) ((vc.drop (a * cl)).take (s * cl))
        d1 d2 dc rnd 0) cl c
      = canonCMIChunk v1 v2 vc cl (a + c) := by
  unfold cmi_pointset canonCMIChunk hstack2 pad_var
  rw [addNoise_zero, chunkOf_zipWith, chunkOf_zipWith,
    chunkOf_append _ (length_subrun h1) hc,
    chunkOf_append _ (length_subrun h2) hc,
    chunkOf_append _ (length_subrun h3) hc,
    chunkOf_take_drop _ hc, chunkOf_take_drop _ hc, chunkOf_take_drop _ hc]

theorem single_run_mi_canonical (ψ : ℕ → ℚ) (d : SettingsDict) (rnd : RunRand)
    (v1 v2 : List (List ℚ)) (d1 d2 : ℕ) {a s cl : ℕ}
    (hs : 0 < s) (hkk : 0 < d.kkR) (hnoise : d.noiseR = 0)
    (h1 : (a + s) * cl ≤ v1.length) (h2 : (a + s) * cl ≤ v2.length) :
    estimate_single_run_mi ψ d rnd ((v1.drop (a * cl)).take (s * cl))
        ((v2.drop (a * cl)).take (s * cl)) d1 d2 s
      = { mi := (List.range s).map (fun c =>
            canonMIval ψ (canonMIChunk v1 v2 cl) d1 d2 d.kkR d.theilerR cl (a + c)),
          dbg := if d.debugR then some
              ((List.range (s * cl)).map (fun i =>
                canonDist (canonMIChunk v1 v2 cl) 1 d.theilerR (a + i / cl) (i % cl)),
               (List.range (s * cl)).map (fun i =>
                canonCnt (canonMIChunk v1 v2 cl) 0 d1 d.kkR d.theilerR (a + i / cl) (i % cl)),
               (List.range (s * cl)).map (fun i =>
                canonCnt (canonMIChunk v1 v2 cl) d1 d2 d.kkR d.theilerR (a + i / cl) (i % cl)))
            else none } := by
  have hw1 := length_subrun h1
  have hchunk : ∀ c < s, chunkOf (mi_pointset ((v1.drop (a * cl)).take (s * cl))
      ((v2.drop (a * cl)).take (s * cl)) d1 d2 rnd d.noiseR) cl c
      = canonMIChunk v1 v2 cl (a + c) := by
    intro c hc
    rw [hnoise]
    exact chunkOf_mi_pointset d1 d2 rnd h1 h2 hc
  simp only [estimate_single_run_mi]
  rw [hw1, Nat.mul_div_cancel_left cl hs]
  rw [calculate_mi_subrun ψ hchunk d.kkR d.theilerR d1 d2,
    distancesFlat_take hchunk d.theilerR hkk,
    counts_take (fun i hi => rangeCount_factor hchunk 0 d1 d.kkR d.theilerR hi),
    counts_take (fun i hi => rangeCount_factor hchunk d1 d2 d.kkR d.theilerR hi)]
  split_ifs
  · rfl
  · rfl

theorem single_run_cmi_canonical (ψ : ℕ → ℚ) (d : SettingsDict) (rnd : RunRand)
    (v1 v2 vc : List (List ℚ)) (d1 d2 dc : ℕ) {a s cl : ℕ}
    (hs : 0 < s) (hkk : 0 < d.kkR) (hnoise : d.noiseR = 0)
    (h1 : (a + s) * cl ≤ v1.length) (h2 : (a + s) * cl ≤ v2.length)
    (h3 : (a + s) * cl ≤ vc.length) :
    estimate_single_run_cmi ψ d rnd ((v1.drop (a * cl)).take (s * cl))
        ((v2.drop (a * cl)).take (s * cl)) ((vc.drop (a * cl)).take (s * cl))
        d1 d2 dc s
      = { cmi := (List.range s).map (fun c =>
            canonCMIval ψ (canonCMIChunk v1 v2 vc cl) d1 d2 dc d.kkR d.theilerR cl (a + c)),
          dbg := if d.debugR then some
              ((List.range (s * cl)).map (fun i =>
                canonDist (canonCMIChunk v1 v2 vc cl) 1 d.theilerR (a + i / cl) (i % cl)),
               (List.range (s * cl)).map (fun i =>
                canonCnt (canonCMIChunk v1 v2 vc cl) d1 dc d.kkR d.theilerR (a + i / cl) (i % cl)),
               (List.range (s * cl)).map (fun i =>
                canonCnt (canonCMIChunk v1 v2 vc cl) 0 (d1 + dc) d.kkR d.theilerR (a + i / cl) (i % cl)),
               (List.range (s * cl)).map (fun i =>
                canonCnt (canonCMIChunk v1 v2 vc cl) d1 (dc + d2) d.kkR d.theilerR (a + i / cl) (i % cl)))
            else none } := by
  have hw1 := length_subrun h1
  have hchunk : ∀ c < s, chunkOf (cmi_pointset ((v1.drop (a * cl)).take (s * cl))
      ((v2.drop (a * cl)).take (s * cl)) ((vc.drop (a * cl)).take (s * cl))
      d1 d2 dc rnd d.noiseR) cl c
      = canonCMIChunk v1 v2 vc cl (a + c) := by
    intro c hc
    rw [hnoise]
    exact chunkOf_cmi_pointset d1 d2 dc rnd h1 h2 h3 hc
  simp only [estimate_single_run_cmi]
  rw [hw1, Nat.mul_div_cancel_left cl hs]
  rw [calculate_cmi_subrun ψ hchunk d.kkR d.theilerR d1 d2 dc,
    distancesFlat_take hchunk d.theilerR hkk,
    counts_take (fun i hi => rangeCount_factor hchunk d1 dc d.kkR d.theilerR hi),
    counts_take (fun i hi => rangeCount_factor hchunk 0 (d1 + dc) d.kkR d.theilerR hi),
    counts_take (fun i hi => rangeCount_factor hchunk d1 (dc + d2) d.kkR d.theilerR hi)]
  split_ifs
  · rfl
  · rfl
theorem flatten_singletons {α β : Type} (f : β → α) (l : List β) :
    (l.map (fun x => [f x])).flatten = l.map f := by
  induction l with
  | nil => rfl
  | cons a l ih => simp [ih]

theorem flatten_runs_map {α : Type} (g : ℕ → α) (cpr n : ℕ) (hcpr : 0 < cpr) :
    ((List.range ((n + cpr - 1) / cpr)).map (fun q =>
        (List.range (min (q * cpr + cpr) n - q * cpr)).map
          (fun c => g (q * cpr + c)))).flatten
      = (List.range n).map g := by
  have h := flatten_runs (fun c => [g c]) cpr n hcpr
  rw [flatten_singletons g (List.range n)] at h
  rw [← h, List.flatten_flatten, List.map_map]
  congr 1
  apply List.map_congr_left
  intro q _
  exact (flatten_singletons _ _).symm

theorem blocks_of_points {α : Type} (G : ℕ → ℕ → α) (s cl : ℕ) :
    (List.range (s * cl)).map (fun i => G (i / cl) (i % cl))
      = ((List.range s).map (fun c =>
          (List.range cl).map (fun ii => G c ii))).flatten := by
  rw [range_mul_blocks]
  congr 1
  apply List.map_congr_left
  intro c _
  apply List.map_congr_left
  intro i hi
  rw [List.mem_range] at hi
  rw [mul_add_div_self hi, mul_add_mod_self hi]

theorem flatten_runs_points {α : Type} (G : ℕ → ℕ → α) (cpr n cl : ℕ)
    (hcpr : 0 < cpr) :
    ((List.range ((n + cpr - 1) / cpr)).map (fun q =>
        (List.range ((min (q * cpr + cpr) n - q * cpr) * cl)).map
          (fun i => G (q * cpr + i / cl) (i % cl)))).flatten
      = (List.range (n * cl)).map (fun i => G (i / cl) (i % cl)) := by
  have h1 : ∀ q ∈ List.range ((n + cpr - 1) / cpr),
      (List.range ((min (q * cpr + cpr) n - q * cpr) * cl)).map
          (fun i => G (q * cpr + i / cl) (i % cl))
        = ((List.range (min (q * cpr + cpr) n - q * cpr)).map
            (fun c => (List.range cl).map (fun ii => G (q * cpr + c) ii))).flatten := by
    intro q _
    exact blocks_of_points (fun c ii => G (q * cpr + c) ii) _ cl
  rw [List.map_congr_left h1]
  have h2 : (List.range ((n + cpr - 1) / cpr)).map (fun q =>
        ((List.range (min (q * cpr + cpr) n - q * cpr)).map
          (fun c => (List.range cl).map (fun ii => G (q * cpr + c) ii))).flatten)
      = ((List.range ((n + cpr - 1) / cpr)).map (fun q =>
          (List.range (min (q * cpr + cpr) n - q * cpr)).map
            (fun c => (List.range cl).map (fun ii => G (q * cpr + c) ii)))).map
          List.flatten := by
    rw [List.map_map]
    rfl
  rw [h2, ← List.flatten_flatten,
    flatten_runs (fun c => (List.range cl).map (fun ii => G c ii)) cpr n hcpr,
    ← blocks_of_points G n cl]
/-- Canonical (randomness-free, batching-free) value of
`OpenCLKraskovMI.estimate` under `noise_level = 0`: validation and branch
structure as in the source, but every returned quantity expressed through
the trial-chunks of the unpadded data. -/
def canonicalMI (est : OpenCLKraskovMI) (ψ : ℕ → ℚ) (var1 var2 : List (List ℚ))
    (d1 d2 n_chunks : ℕ) : Except EstError MIEstimateResult :=
  if var1.length = var2.length then
   if var1.length % n_chunks = 0 then
    let s := est.settings
    let vs := add_mi_lag s.lagR var1 var2
    let v1 := vs.1
    let v2 := vs.2
    let cl := v1.length / n_chunks
    let ch := canonMIChunk v1 v2 cl
    let mi := (List.range n_chunks).map
      (fun c => canonMIval ψ ch d1 d2 s.kkR s.theilerR cl c)
    if s.debugR then
      let dst := (List.range (n_chunks * cl)).map
        (fun i => canonDist ch 1 s.theilerR (i / cl) (i % cl))
      let c1 := (List.range (n_chunks * cl)).map
        (fun i => canonCnt ch 0 d1 s.kkR s.theilerR (i / cl) (i % cl))
      let c2 := (List.range (n_chunks * cl)).map
        (fun i => canonCnt ch d1 d2 s.kkR s.theilerR (i / cl) (i % cl))
      if s.rcR then .ok { mi := mi, counts := some (dst, c1, c2) }
      else .ok { mi := mi, counts := none }
    else
      if s.rcR then .error .unboundLocal
      else .ok { mi := mi, counts := none }
   else .error .shapeMismatch
  else .error .shapeMismatch

theorem add_mi_lag_length {lag : ℕ} {a b : List (List ℚ)}
    (h : a.length = b.length) :
    (add_mi_lag lag a b).1.length = (add_mi_lag lag a b).2.length := by
  unfold add_mi_lag
  split_ifs with hl
  · simp only [List.length_take, List.length_drop, h]
    omega
  · exact h

theorem estimate_mi_canonical (est : OpenCLKraskovMI) (ψ : ℕ → ℚ)
    (rnd : ℕ → RunRand) (var1 var2 : List (List ℚ)) (d1 d2 n_chunks cpr : ℕ)
    (hkk : 0 < est.settings.kkR) (hnoise : est.settings.noiseR = 0)
    (hcpr : 0 < cpr) :
    est.estimate ψ rnd var1 var2 d1 d2 n_chunks cpr
      = canonicalMI est ψ var1 var2 d1 d2 n_chunks := by
  unfold OpenCLKraskovMI.estimate canonicalMI
  unfold_let
  by_cases hA : var1.length = var2.length
  case neg => rw [if_neg hA, if_neg hA]
  rw [if_pos hA, if_pos hA]
  by_cases hB : var1.length % n_chunks = 0
  case neg => rw [if_neg hB, if_neg hB]
  rw [if_pos hB, if_pos hB]
  have hlen2 : (add_mi_lag est.settings.lagR var1 var2).1.length
      = (add_mi_lag est.settings.lagR var1 var2).2.length :=
    add_mi_lag_length hA
  set v1 := (add_mi_lag (est.settings.lagR) var1 var2).1 with hv1
  set v2 := (add_mi_lag (est.settings.lagR) var1 var2).2 with hv2
  set cl := v1.length / n_chunks with hcl
  have hbound1 : n_chunks * cl ≤ v1.length := by
    rw [hcl, Nat.mul_comm]
    exact Nat.div_mul_le_self _ _
  have hbound2 : n_chunks * cl ≤ v2.length := by
    rw [← hlen2]
    exact hbound1
  have hruns : ∀ q ∈ List.range ((n_chunks + cpr - 1) / cpr),
      estimate_single_run_mi ψ est.settings (rnd q)
          ((v1.drop (q * cpr * cl)).take ((min (q * cpr + cpr) n_chunks - q * cpr) * cl))
          ((v2.drop (q * cpr * cl)).take ((min (q * cpr + cpr) n_chunks - q * cpr) * cl))
          d1 d2 (min (q * cpr + cpr) n_chunks - q * cpr)
        = { mi := (List.range (min (q * cpr + cpr) n_chunks - q * cpr)).map (fun c =>
              canonMIval ψ (canonMIChunk v1 v2 cl) d1 d2 est.settings.kkR
                est.settings.theilerR cl (q * cpr + c)),
            dbg := if est.settings.debugR then some
                ((List.range ((min (q * cpr + cpr) n_chunks - q * cpr) * cl)).map (fun i =>
                  canonDist (canonMIChunk v1 v2 cl) 1 est.settings.theilerR
                    (q * cpr + i / cl) (i % cl)),
                 (List.range ((min (q * cpr + cpr) n_chunks - q * cpr) * cl)).map (fun i =>
                  canonCnt (canonMIChunk v1 v2 cl) 0 d1 est.settings.kkR
                    est.settings.theilerR (q * cpr + i / cl) (i % cl)),
                 (List.range ((min (q * cpr + cpr) n_chunks - q * cpr) * cl)).map (fun i =>
                  canonCnt (canonMIChunk v1 v2 cl) d1 d2 est.settings.kkR
                    est.settings.theilerR (q * cpr + i / cl) (i % cl)))
              else none } := by
    intro q hq
    rw [List.mem_range] at hq
    have hqlt : q * cpr < n_chunks := runStart_lt hq hcpr
    have hspos : 0 < min (q * cpr + cpr) n_chunks - q * cpr := by omega
    have haseq : q * cpr + (min (q * cpr + cpr) n_chunks - q * cpr)
        = min (q * cpr + cpr) n_chunks := by omega
    have hle1 : (q * cpr + (min (q * cpr + cpr) n_chunks - q * cpr)) * cl
        ≤ v1.length := by
      rw [haseq]
      exact le_trans (Nat.mul_le_mul_right cl (min_le_right _ _)) hbound1
    have hle2 : (q * cpr + (min (q * cpr + cpr) n_chunks - q * cpr)) * cl
        ≤ v2.length := by
      rw [haseq]
      exact le_trans (Nat.mul_le_mul_right cl (min_le_right _ _)) hbound2
    exact single_run_mi_canonical ψ est.settings (rnd q) v1 v2 d1 d2
      hspos hkk hnoise hle1 hle2
  rw [List.map_congr_left hruns]
  by_cases hdbg : est.settings.debugR
  · simp only [hdbg, if_true, List.map_map, Function.comp_def, Option.getD_some]
    rw [flatten_runs_map (fun c => canonMIval ψ (canonMIChunk v1 v2 cl) d1 d2
        est.settings.kkR est.settings.theilerR cl c) cpr n_chunks hcpr,
      flatten_runs_points (fun c i => canonDist (canonMIChunk v1 v2 cl) 1
        est.settings.theilerR c i) cpr n_chunks cl hcpr,
      flatten_runs_points (fun c i => canonCnt (canonMIChunk v1 v2 cl) 0 d1
        est.settings.kkR est.settings.theilerR c i) cpr n_chunks cl hcpr,
      flatten_runs_points (fun c i => canonCnt (canonMIChunk v1 v2 cl) d1 d2
        est.settings.kkR est.settings.theilerR c i) cpr n_chunks cl hcpr]
  · simp only [hdbg, if_false, Bool.false_eq_true, List.map_map, Function.comp_def]
    rw [flatten_runs_map (fun c => canonMIval ψ (canonMIChunk v1 v2 cl) d1 d2
        est.settings.kkR est.settings.theilerR cl c) cpr n_chunks hcpr]
/-- Canonical value of the conditional path of `OpenCLKraskovCMI.estimate`
under `noise_level = 0`. -/
def canonicalCMI (est : OpenCLKraskovCMI) (ψ : ℕ → ℚ)
    (var1 var2 cond : List (List ℚ)) (d1 d2 dc n_chunks : ℕ) :
    Except EstError CMIEstimateResult :=
  if var1.length = var2.length ∧ var1.length = cond.length then
   if var1.length % n_chunks = 0 then
    let s := est.settings
    let cl := var1.length / n_chunks
    let ch := canonCMIChunk var1 var2 cond cl
    let cmi := (List.range n_chunks).map
      (fun c => canonCMIval ψ ch d1 d2 dc s.kkR s.theilerR cl c)
    if s.debugR then
      let dst := (List.range (n_chunks * cl)).map
        (fun i => canonDist ch 1 s.theilerR (i / cl) (i % cl))
      let ccnd := (List.range (n_chunks * cl)).map
        (fun i => canonCnt ch d1 dc s.kkR s.theilerR (i / cl) (i % cl))
      let csrc := (List.range (n_chunks * cl)).map
        (fun i => canonCnt ch 0 (d1 + dc) s.kkR s.theilerR (i / cl) (i % cl))
      let ctgt := (List.range (n_chunks * cl)).map
        (fun i => canonCnt ch d1 (dc + d2) s.kkR s.theilerR (i / cl) (i % cl))
      if s.rcR then .ok { cmi := cmi, counts := some (dst, ccnd, csrc, ctgt) }
      else .ok { cmi := cmi, counts := none }
    else
      if s.rcR then .error .unboundLocal
      else .ok { cmi := cmi, counts := none }
   else .error .shapeMismatch
  else .error .shapeMismatch

theorem estimate_cmi_canonical (est : OpenCLKraskovCMI) (ψ : ℕ → ℚ)
    (rnd : ℕ → RunRand) (var1 var2 cond : List (List ℚ))
    (d1 d2 dc n_chunks cpr : ℕ)
    (hkk : 0 < est.settings.kkR) (hnoise : est.settings.noiseR = 0)
    (hcpr : 0 < cpr) :
    est.estimateCond ψ rnd var1 var2 cond d1 d2 dc n_chunks cpr
      = canonicalCMI est ψ var1 var2 cond d1 d2 dc n_chunks := by
  unfold OpenCLKraskovCMI.estimateCond canonicalCMI
  unfold_let
  by_cases hA : var1.length = var2.length ∧ var1.length = cond.length
  case neg => rw [if_neg hA, if_neg hA]
  rw [if_pos hA, if_pos hA]
  by_cases hB : var1.length % n_chunks = 0
  case neg => rw [if_neg hB, if_neg hB]
  rw [if_pos hB, if_pos hB]
  set cl := var1.length / n_chunks with hcl
  have hbound1 : n_chunks * cl ≤ var1.length := by
    rw [hcl, Nat.mul_comm]
    exact Nat.div_mul_le_self _ _
  have hbound2 : n_chunks * cl ≤ var2.length := by
    rw [← hA.1]
    exact hbound1
  have hbound3 : n_chunks * cl ≤ cond.length := by
    rw [← hA.2]
    exact hbound1
  have hruns : ∀ q ∈ List.range ((n_chunks + cpr - 1) / cpr),
      estimate_single_run_cmi ψ est.settings (rnd q)
          ((var1.drop (q * cpr * cl)).take ((min (q * cpr + cpr) n_chunks - q * cpr) * cl))
          ((var2.drop (q * cpr * cl)).take ((min (q * cpr + cpr) n_chunks - q * cpr) * cl))
          ((cond.drop (q * cpr * cl)).take ((min (q * cpr + cpr) n_chunks - q * cpr) * cl))
          d1 d2 dc (min (q * cpr + cpr) n_chunks - q * cpr)
        = { cmi := (List.range (min (q * cpr + cpr) n_chunks - q * cpr)).map (fun c =>
              canonCMIval ψ (canonCMIChunk var1 var2 cond cl) d1 d2 dc
                est.settings.kkR est.settings.theilerR cl (q * cpr + c)),
            dbg := if est.settings.debugR then some
                ((List.range ((min (q * cpr + cpr) n_chunks - q * cpr) * cl)).map (fun i =>
                  canonDist (canonCMIChunk var1 var2 cond cl) 1 est.settings.theilerR
                    (q * cpr + i / cl) (i % cl)),
                 (List.range ((min (q * cpr + cpr) n_chunks - q * cpr) * cl)).map (fun i =>
                  canonCnt (canonCMIChunk var1 var2 cond cl) d1 dc est.settings.kkR
                    est.settings.theilerR (q * cpr + i / cl) (i % cl)),
                 (List.range ((min (q * cpr + cpr) n_chunks - q * cpr) * cl)).map (fun i =>
                  canonCnt (canonCMIChunk var1 var2 cond cl) 0 (d1 + dc) est.settings.kkR
                    est.settings.theilerR (q * cpr + i / cl) (i % cl)),
                 (List.range ((min (q * cpr + cpr) n_chunks - q * cpr) * cl)).map (fun i =>
                  canonCnt (canonCMIChunk var1 var2 cond cl) d1 (dc + d2) est.settings.kkR
                    est.settings.theilerR (q * cpr + i / cl) (i % cl)))
              else none } := by
    intro q hq
    rw [List.mem_range] at hq
    have hqlt : q * cpr < n_chunks := runStart_lt hq hcpr
    have hspos : 0 < min (q * cpr + cpr) n_chunks - q * cpr := by omega
    have haseq : q * cpr + (min (q * cpr + cpr) n_chunks - q * cpr)
        = min (q * cpr + cpr) n_chunks := by omega
    have hle1 : (q * cpr + (min (q * cpr + cpr) n_chunks - q * cpr)) * cl
        ≤ var1.length := by
      rw [haseq]
      exact le_trans (Nat.mul_le_mul_right cl (min_le_right _ _)) hbound1
    have hle2 : (q * cpr + (min (q * cpr + cpr) n_chunks - q * cpr)) * cl
        ≤ var2.length := by
      rw [haseq]
      exact le_trans (Nat.mul_le_mul_right cl (min_le_right _ _)) hbound2
    have hle3 : (q * cpr + (min (q * cpr + cpr) n_chunks - q * cpr)) * cl
        ≤ cond.length := by
      rw [haseq]
      exact le_trans (Nat.mul_le_mul_right cl (min_le_right _ _)) hbound3
    exact single_run_cmi_canonical ψ est.settings (rnd q) var1 var2 cond d1 d2 dc
      hspos hkk hnoise hle1 hle2 hle3
  rw [List.map_congr_left hruns]
  by_cases hdbg : est.settings.debugR
  · simp only [hdbg, if_true, List.map_map, Function.comp_def, Option.getD_some]
    rw [flatten_runs_map (fun c => canonCMIval ψ (canonCMIChunk var1 var2 cond cl)
        d1 d2 dc est.settings.kkR est.settings.theilerR cl c) cpr n_chunks hcpr,
      flatten_runs_points (fun c i => canonDist (canonCMIChunk var1 var2 cond cl) 1
        est.settings.theilerR c i) cpr n_chunks cl hcpr,
      flatten_runs_points (fun c i => canonCnt (canonCMIChunk var1 var2 cond cl) d1 dc
        est.settings.kkR est.settings.theilerR c i) cpr n_chunks cl hcpr,
      flatten_runs_points (fun c i => canonCnt (canonCMIChunk var1 var2 cond cl) 0 (d1 + dc)
        est.settings.kkR est.settings.theilerR c i) cpr n_chunks cl hcpr,
      flatten_runs_points (fun c i => canonCnt (canonCMIChunk var1 var2 cond cl) d1 (dc + d2)
        est.settings.kkR est.settings.theilerR c i) cpr n_chunks cl hcpr]
  · simp only [hdbg, if_false, Bool.false_eq_true, List.map_map, Function.comp_def]
    rw [flatten_runs_map (fun c => canonCMIval ψ (canonCMIChunk var1 var2 cond cl)
        d1 d2 dc est.settings.kkR est.settings.theilerR cl c) cpr n_chunks hcpr]
/-! ### Further helper lemmas for the claims -/

theorem mapIdxFrom_getD {α β : Type} (f : ℕ → α → β) (dflt : α) (dβ : β) :
    ∀ (l : List α) (k i : ℕ), i < l.length →
      (mapIdxFrom f k l).getD i dβ = f (k + i) (l.getD i dflt) := by
  intro l
  induction l with
  | nil =>
    intro k i hi
    simp at hi
  | cons a l ih =>
    intro k i hi
    cases i with
    | zero => simp [mapIdxFrom]
    | succ i =>
      simp only [mapIdxFrom, List.getD_cons_succ]
      rw [ih (k + 1) i (by simpa using hi)]
      congr 1
      omega

theorem mapIdxFrom_id {α : Type} {f : ℕ → α → α} (hf : ∀ i x, f i x = x) :
    ∀ (k : ℕ) (l : List α), mapIdxFrom f k l = l := by
  intro k l
  induction l generalizing k with
  | nil => rfl
  | cons a l ih => simp [mapIdxFrom, hf, ih]

/-- At `noise_level = 0` the unconditional noise step of `opencl_kraskov`
adds zero to every entry, leaving the array unchanged in value. -/
theorem opencl_kraskov_add_noise_zero (var : List (List ℚ)) (g : ℕ → ℕ → ℚ) :
    opencl_kraskov_add_noise var g 0 = var := by
  unfold opencl_kraskov_add_noise
  apply mapIdxFrom_id
  intro i x
  apply mapIdxFrom_id
  intro c y
  simp

theorem zip3_map_sum (f : ℕ → ℕ → ℕ → ℚ) :
    ∀ (cc c1 c2 : List ℕ), cc.length = c1.length → cc.length = c2.length →
    ((cc.zip (c1.zip c2)).map (fun p => f p.1 p.2.1 p.2.2)).sum
      = ((List.range cc.length).map (fun i =>
          f (cc.getD i 0) (c1.getD i 0) (c2.getD i 0))).sum := by
  intro cc
  induction cc with
  | nil =>
    intro c1 c2 _ _
    simp
  | cons a cc ih =>
    intro c1 c2 h1 h2
    cases c1 with
    | nil => simp at h1
    | cons b c1 =>
      cases c2 with
      | nil => simp at h2
      | cons e c2 =>
        simp only [List.zip_cons_cons, List.map_cons, List.sum_cons,
          List.length_cons, List.range_succ_eq_map, List.map_map,
          Function.comp_def, List.getD_cons_zero, List.getD_cons_succ]
        rw [ih c1 c2 (by simpa using h1) (by simpa using h2)]

/-- Truncating the flat distance buffer to the true length yields exactly the
first-nearest-neighbour distance of every true point (the first
`signallength` entries of block 0 of the buffer). -/
theorem distancesFlat_take_true (ps : List (List ℚ)) (cl t n : ℕ) {kk : ℕ}
    (hkk : 0 < kk) :
    (distancesFlat ps cl kk t (n + pad_size n)).take n
      = (List.range n).map (fun i => knnRadius ps cl 1 t i) := by
  unfold distancesFlat knnRadius
  have h1 : n ≤ n + pad_size n := Nat.le_add_right _ _
  have h2 : n ≤ kk * (n + pad_size n) := le_trans h1 (Nat.le_mul_of_pos_left _ hkk)
  rw [take_range_map _ h2]
  apply List.map_congr_left
  intro i hi
  rw [List.mem_range] at hi
  have hilt : i < n + pad_size n := lt_of_lt_of_le hi h1
  rw [Nat.mod_eq_of_lt hilt, Nat.div_eq_of_lt hilt, Nat.zero_add]

/-- Stateful view of a CMI `estimate` call: the result together with the
estimator instance after the call.  Modelled from the spec:
`GPUKraskov.__init__` (`estimators_gpu.py`, not among the verified files)
copies the settings dict before applying defaults, and the settings are
"immutable for the instance's lifetime" (§3), so a call — including the
delegate `OpenCLKraskovMI(self.settings)` construction on the
conditional-free path — leaves the instance unchanged. -/
def OpenCLKraskovCMI.estimateS (est : OpenCLKraskovCMI) (ψ : ℕ → ℚ)
    (rnd : ℕ → RunRand) (var1 var2 : List (List ℚ))
    (conditional : Option (List (List ℚ))) (d1 d2 dc n_chunks chunks_per_run : ℕ) :
    (Except EstError (MIEstimateResult ⊕ CMIEstimateResult)) × OpenCLKraskovCMI :=
  (est.estimate ψ rnd var1 var2 conditional d1 d2 dc n_chunks chunks_per_run, est)

/-- Stateful view of an MI `estimate` call (see `OpenCLKraskovCMI.estimateS`). -/
def OpenCLKraskovMI.estimateS (est : OpenCLKraskovMI) (ψ : ℕ → ℚ)
    (rnd : ℕ → RunRand) (var1 var2 : List (List ℚ))
    (d1 d2 n_chunks chunks_per_run : ℕ) :
    (Except EstError MIEstimateResult) × OpenCLKraskovMI :=
  (est.estimate ψ rnd var1 var2 d1 d2 n_chunks chunks_per_run, est)
/-! ### The claims -/

/-- C1: for every pair of input arrays and every `n_chunks` (and every
digamma model, random-stream assignment, dimensions and `chunks_per_run`),
`OpenCLKraskovCMI.estimate` with `conditional = None` returns exactly the
result of `OpenCLKraskovMI.estimate` on the same two variables for an MI
estimator constructed from the same settings (`OpenCLKraskovMI(self.settings)`
at lines 415-418): the CMI path delegates to the MI path.  `Sum.inl` is the
embedding of the MI return shape into the dynamically-shaped CMI return. -/
theorem C1_cmi_none_delegates_to_mi (est : OpenCLKraskovCMI) (ψ : ℕ → ℚ)
    (rnd : ℕ → RunRand) (var1 var2 : List (List ℚ))
    (d1 d2 dc n_chunks chunks_per_run : ℕ) :
    est.estimate ψ rnd var1 var2 none d1 d2 dc n_chunks chunks_per_run
      = (OpenCLKraskovMI.estimate (OpenCLKraskovMI.new est.settings) ψ rnd
          var1 var2 d1 d2 n_chunks chunks_per_run).map Sum.inl := rfl

/-- C3: the padding step.  `n + pad_size n` is the smallest multiple of 1024
that is at least `n`; `pad_var` appends exactly `pad_size` synthetic rows,
each entry the sentinel `999999` plus `0.1` times the uniform draw, and
leaves the values and order of the first `n` true rows unchanged. -/
theorem C3_padding (n : ℕ) (var : List (List ℚ)) (dim : ℕ)
    (jit : ℕ → ℕ → ℚ) :
    (n + pad_size n) % 1024 = 0
    ∧ (∀ m : ℕ, n ≤ m → m % 1024 = 0 → n + pad_size n ≤ m)
    ∧ (pad_var var dim jit).take var.length = var
    ∧ (pad_var var dim jit).length = var.length + pad_size var.length
    ∧ (∀ r c : ℕ, r < pad_size var.length → c < dim →
        ((pad_var var dim jit).getD (var.length + r) []).getD c 0
          = 999999 + (1 / 10) * jit r c) := by
  refine ⟨?_, ?_, ?_, ?_, ?_⟩
  · unfold pad_size
    omega
  · intro m hm hmod
    unfold pad_size
    omega
  · unfold pad_var
    exact List.take_left var _
  · unfold pad_var padRows
    simp
  · intro r c hr hc
    unfold pad_var padRows
    rw [List.getD_append_right var _ [] _ (Nat.le_add_right _ _)]
    have hidx : var.length + r - var.length = r := by omega
    rw [hidx, getD_map_range _ hr, getD_map_range _ hc]

/-- C3 witness: concrete instances of the padding contract at `n = 1000`
and for a one-row, one-column variable. -/
theorem C3_padding_witness :
    (1000 + pad_size 1000) % 1024 = 0
    ∧ (1000 : ℕ) ≤ 1024 ∧ (1024 : ℕ) % 1024 = 0 ∧ 1000 + pad_size 1000 ≤ 1024
    ∧ (pad_var [[5]] 1 (fun _ _ => 0)).take 1 = [[5]]
    ∧ (0 : ℕ) < pad_size 1 ∧ (0 : ℕ) < 1
    ∧ ((pad_var [[5]] 1 (fun _ _ => 0)).getD (1 + 0) []).getD 0 0
        = 999999 + (1 / 10) * 0 := by
  refine ⟨(C3_padding 1000 [] 0 (fun _ _ => 0)).1,
    by norm_num, by norm_num,
    (C3_padding 1000 [] 0 (fun _ _ => 0)).2.1 1024 (by norm_num) (by norm_num),
    (C3_padding 1 [[5]] 1 (fun _ _ => 0)).2.2.1,
    by decide, by norm_num,
    (C3_padding 1 [[5]] 1 (fun _ _ => 0)).2.2.2.2 0 0 (by decide) (by norm_num)⟩

/-- C9: settings are fixed at construction and no `estimate` call — in
particular the conditional-free CMI call, which constructs the delegate
`OpenCLKraskovMI(self.settings)` — modifies the instance's settings: the
post-call instance equals the pre-call instance, and the delegate holds its
own copy (the construction-time defaults applied to `est.settings`, plus
the MI-specific `lag_mi` default). -/
theorem C9_settings_immutable (est : OpenCLKraskovCMI) (estM : OpenCLKraskovMI)
    (ψ : ℕ → ℚ) (rnd : ℕ → RunRand) (var1 var2 : List (List ℚ))
    (conditional : Option (List (List ℚ)))
    (d1 d2 dc n_chunks chunks_per_run : ℕ) :
    (est.estimateS ψ rnd var1 var2 conditional d1 d2 dc n_chunks
        chunks_per_run).2.settings = est.settings
    ∧ (estM.estimateS ψ rnd var1 var2 d1 d2 n_chunks
        chunks_per_run).2.settings = estM.settings
    ∧ (OpenCLKraskovMI.new est.settings).settings
        = { GPUKraskov.applyDefaults est.settings with
            lag_mi := some ((GPUKraskov.applyDefaults est.settings).lag_mi.getD 0) } :=
  ⟨rfl, rfl, rfl⟩

/-- C10: with `return_counts = True` but `debug = False`, building the return
value reads the debug locals (`distances`, `count_var1`, ...) that are only
ever assigned under the `debug` flag, so the call fails with Python's
`UnboundLocalError` instead of returning counts — on both the MI and the
CMI estimator (valid shapes assumed, so that validation does not fail
first). -/
theorem C10_return_counts_without_debug (est : OpenCLKraskovMI)
    (estC : OpenCLKraskovCMI) (ψ : ℕ → ℚ) (rnd : ℕ → RunRand)
    (var1 var2 cond : List (List ℚ)) (d1 d2 dc n_chunks chunks_per_run : ℕ)
    (hrc : est.settings.rcR = true) (hdbg : est.settings.debugR = false)
    (hrcC : estC.settings.rcR = true) (hdbgC : estC.settings.debugR = false)
    (hlen : var1.length = var2.length) (hlenc : var1.length = cond.length)
    (hdvd : var1.length % n_chunks = 0) :
    est.estimate ψ rnd var1 var2 d1 d2 n_chunks chunks_per_run
        = .error .unboundLocal
    ∧ estC.estimate ψ rnd var1 var2 (some cond) d1 d2 dc n_chunks
        chunks_per_run = .error .unboundLocal := by
  constructor
  · unfold OpenCLKraskovMI.estimate
    rw [if_pos hlen, if_pos hdvd]
    simp [hdbg, hrc]
  · simp only [OpenCLKraskovCMI.estimate]
    unfold OpenCLKraskovCMI.estimateCond
    rw [if_pos ⟨hlen, hlenc⟩, if_pos hdvd]
    simp [hdbgC, hrcC, Except.map]

/-- C10 witness: a concrete estimator with `return_counts` set and `debug`
unset fails with the unbound-local error on a concrete valid input. -/
theorem C10_witness :
    ({ settings := { return_counts := some true } } : OpenCLKraskovMI).settings.rcR
        = true
    ∧ ({ settings := { return_counts := some true } } : OpenCLKraskovMI).settings.debugR
        = false
    ∧ ([[ (0 : ℚ) ]] : List (List ℚ)).length = ([[0]] : List (List ℚ)).length
    ∧ ([[ (0 : ℚ) ]] : List (List ℚ)).length % 1 = 0
    ∧ OpenCLKraskovMI.estimate { settings := { return_counts := some true } }
        (fun _ => 0) (fun _ => ⟨fun _ _ => 0, fun _ _ => 0, fun _ _ => 0, fun _ _ => 0⟩)
        [[0]] [[0]] 1 1 1 1 = .error .unboundLocal
    ∧ OpenCLKraskovCMI.estimate { settings := { return_counts := some true } }
        (fun _ => 0) (fun _ => ⟨fun _ _ => 0, fun _ _ => 0, fun _ _ => 0, fun _ _ => 0⟩)
        [[0]] [[0]] (some [[0]]) 1 1 1 1 1 = .error .unboundLocal := by
  refine ⟨rfl, rfl, rfl, rfl, ?_, ?_⟩
  · exact (C10_return_counts_without_debug
      { settings := { return_counts := some true } }
      { settings := { return_counts := some true } }
      (fun _ => 0) (fun _ => ⟨fun _ _ => 0, fun _ _ => 0, fun _ _ => 0, fun _ _ => 0⟩)
      [[0]] [[0]] [[0]] 1 1 1 1 1 rfl rfl rfl rfl rfl rfl rfl).1
  · exact (C10_return_counts_without_debug
      { settings := { return_counts := some true } }
      { settings := { return_counts := some true } }
      (fun _ => 0) (fun _ => ⟨fun _ _ => 0, fun _ _ => 0, fun _ _ => 0, fun _ _ => 0⟩)
      [[0]] [[0]] [[0]] 1 1 1 1 1 rfl rfl rfl rfl rfl rfl rfl).2
/-- C5: with `noise_level = 0` and fixed input arrays, two `estimate` calls
that draw different randomness (different padding jitter and Gaussian
streams, modelled by `rnd` versus `rnd2`) return identical results —
estimates and, in debug mode, neighbour counts and distances — on both the
MI and the CMI estimator.  (`kraskov_k ≥ 1` as in any meaningful KNN
search, and `chunks_per_run ≥ 1` as guaranteed by the chunk planner.) -/
theorem C5_determinism_noise_zero (est : OpenCLKraskovMI)
    (estC : OpenCLKraskovCMI) (ψ : ℕ → ℚ) (rnd rnd2 : ℕ → RunRand)
    (var1 var2 cond : List (List ℚ)) (d1 d2 dc n_chunks chunks_per_run : ℕ)
    (hkk : 0 < est.settings.kkR) (hn : est.settings.noiseR = 0)
    (hkkC : 0 < estC.settings.kkR) (hnC : estC.settings.noiseR = 0)
    (hcpr : 0 < chunks_per_run) :
    est.estimate ψ rnd var1 var2 d1 d2 n_chunks chunks_per_run
      = est.estimate ψ rnd2 var1 var2 d1 d2 n_chunks chunks_per_run
    ∧ estC.estimate ψ rnd var1 var2 (some cond) d1 d2 dc n_chunks chunks_per_run
      = estC.estimate ψ rnd2 var1 var2 (some cond) d1 d2 dc n_chunks chunks_per_run := by
  constructor
  · rw [estimate_mi_canonical est ψ rnd var1 var2 d1 d2 n_chunks chunks_per_run
        hkk hn hcpr,
      estimate_mi_canonical est ψ rnd2 var1 var2 d1 d2 n_chunks chunks_per_run
        hkk hn hcpr]
  · simp only [OpenCLKraskovCMI.estimate]
    rw [estimate_cmi_canonical estC ψ rnd var1 var2 cond d1 d2 dc n_chunks
        chunks_per_run hkkC hnC hcpr,
      estimate_cmi_canonical estC ψ rnd2 var1 var2 cond d1 d2 dc n_chunks
        chunks_per_run hkkC hnC hcpr]

/-- C5 witness: concrete deterministic settings, two different stream
assignments, identical results. -/
theorem C5_witness :
    (0 : ℕ) < ({ settings := { noise_level := some 0 } } : OpenCLKraskovMI).settings.kkR
    ∧ ({ settings := { noise_level := some 0 } } : OpenCLKraskovMI).settings.noiseR = 0
    ∧ (0 : ℕ) < 1
    ∧ OpenCLKraskovMI.estimate { settings := { noise_level := some 0 } }
        (fun _ => 0) (fun _ => ⟨fun _ _ => 0, fun _ _ => 0, fun _ _ => 0, fun _ _ => 0⟩)
        [[0], [1]] [[0], [2]] 1 1 1 1
      = OpenCLKraskovMI.estimate { settings := { noise_level := some 0 } }
        (fun _ => 0) (fun _ => ⟨fun _ _ => 7, fun _ _ => 3, fun _ _ => 5, fun _ _ => 9⟩)
        [[0], [1]] [[0], [2]] 1 1 1 1 := by
  refine ⟨by decide, rfl, by decide, ?_⟩
  exact (C5_determinism_noise_zero { settings := { noise_level := some 0 } }
    { settings := { noise_level := some 0 } } (fun _ => 0)
    (fun _ => ⟨fun _ _ => 0, fun _ _ => 0, fun _ _ => 0, fun _ _ => 0⟩)
    (fun _ => ⟨fun _ _ => 7, fun _ _ => 3, fun _ _ => 5, fun _ _ => 9⟩)
    [[0], [1]] [[0], [2]] [[0], [1]] 1 1 1 1 1
    (by decide) rfl (by decide) rfl (by decide)).1

/-- C6: for `1 ≤ chunks_per_run ≤ n_chunks` (and `noise_level = 0`, the
deterministic setting under which equality of two runs is meaningful), the
sub-run loop of `estimate` — which processes the `n_chunks` trial-chunks in
groups of at most `chunks_per_run`, concatenating each sub-run's results in
chunk order — returns exactly the result of a single sub-run covering all
chunks at once (`chunks_per_run = n_chunks`), for estimates and, in debug
mode, per-point counts and distances; the random streams of the two runs
may even differ. -/
theorem C6_subrun_batching (est : OpenCLKraskovMI) (estC : OpenCLKraskovCMI)
    (ψ : ℕ → ℚ) (rnd rnd2 : ℕ → RunRand) (var1 var2 cond : List (List ℚ))
    (d1 d2 dc n_chunks chunks_per_run : ℕ)
    (hkk : 0 < est.settings.kkR) (hn : est.settings.noiseR = 0)
    (hkkC : 0 < estC.settings.kkR) (hnC : estC.settings.noiseR = 0)
    (hcpr : 0 < chunks_per_run) (hle : chunks_per_run ≤ n_chunks) :
    est.estimate ψ rnd var1 var2 d1 d2 n_chunks chunks_per_run
      = est.estimate ψ rnd2 var1 var2 d1 d2 n_chunks n_chunks
    ∧ estC.estimate ψ rnd var1 var2 (some cond) d1 d2 dc n_chunks chunks_per_run
      = estC.estimate ψ rnd2 var1 var2 (some cond) d1 d2 dc n_chunks n_chunks := by
  have hnch : 0 < n_chunks := lt_of_lt_of_le hcpr hle
  constructor
  · rw [estimate_mi_canonical est ψ rnd var1 var2 d1 d2 n_chunks chunks_per_run
        hkk hn hcpr,
      estimate_mi_canonical est ψ rnd2 var1 var2 d1 d2 n_chunks n_chunks
        hkk hn hnch]
  · simp only [OpenCLKraskovCMI.estimate]
    rw [estimate_cmi_canonical estC ψ rnd var1 var2 cond d1 d2 dc n_chunks
        chunks_per_run hkkC hnC hcpr,
      estimate_cmi_canonical estC ψ rnd2 var1 var2 cond d1 d2 dc n_chunks
        n_chunks hkkC hnC hnch]

/-- C6 witness: four trial-chunks processed two at a time equal one sub-run
over all four. -/
theorem C6_witness :
    (0 : ℕ) < ({ settings := { noise_level := some 0 } } : OpenCLKraskovMI).settings.kkR
    ∧ ({ settings := { noise_level := some 0 } } : OpenCLKraskovMI).settings.noiseR = 0
    ∧ (0 : ℕ) < 2 ∧ (2 : ℕ) ≤ 4
    ∧ OpenCLKraskovMI.estimate { settings := { noise_level := some 0 } }
        (fun _ => 0) (fun q => ⟨fun _ _ => q, fun _ _ => 0, fun _ _ => 0, fun _ _ => 0⟩)
        [[0], [1], [2], [3]] [[0], [2], [4], [6]] 1 1 4 2
      = OpenCLKraskovMI.estimate { settings := { noise_level := some 0 } }
        (fun _ => 0) (fun _ => ⟨fun _ _ => 0, fun _ _ => 0, fun _ _ => 0, fun _ _ => 0⟩)
        [[0], [1], [2], [3]] [[0], [2], [4], [6]] 1 1 4 4 := by
  refine ⟨by decide, rfl, by decide, by decide, ?_⟩
  exact (C6_subrun_batching { settings := { noise_level := some 0 } }
    { settings := { noise_level := some 0 } } (fun _ => 0)
    (fun q => ⟨fun _ _ => q, fun _ _ => 0, fun _ _ => 0, fun _ _ => 0⟩)
    (fun _ => ⟨fun _ _ => 0, fun _ _ => 0, fun _ _ => 0, fun _ _ => 0⟩)
    [[0], [1], [2], [3]] [[0], [2], [4], [6]] [[0], [1], [2], [3]] 1 1 1 4 2
    (by decide) rfl (by decide) rfl (by decide) (by decide)).1

/-- C7: `estimate` fails with the ShapeMismatch error — never silently
truncating or dropping rows — whenever the variables have unequal numbers
of realisations or the row count is not divisible by `n_chunks`, on both
the MI and the CMI path (for the CMI path also when the conditional's
realisation count differs).  The validation itself is modelled from the
spec (§4.1, §8), since `_prepare_data` lives in `estimators_gpu.py`. -/
theorem C7_shape_mismatch (est : OpenCLKraskovMI) (estC : OpenCLKraskovCMI)
    (ψ : ℕ → ℚ) (rnd : ℕ → RunRand) (var1 var2 cond : List (List ℚ))
    (d1 d2 dc n_chunks chunks_per_run : ℕ) :
    ((var1.length ≠ var2.length ∨ var1.length % n_chunks ≠ 0) →
      est.estimate ψ rnd var1 var2 d1 d2 n_chunks chunks_per_run
        = .error .shapeMismatch)
    ∧ ((var1.length ≠ var2.length ∨ var1.length ≠ cond.length
          ∨ var1.length % n_chunks ≠ 0) →
      estC.estimate ψ rnd var1 var2 (some cond) d1 d2 dc n_chunks chunks_per_run
        = .error .shapeMismatch) := by
  constructor
  · intro h
    unfold OpenCLKraskovMI.estimate
    split_ifs with h1 h2
    · rcases h with h | h
      · exact absurd h1 h
      · exact absurd h2 h
    · rfl
    · rfl
  · intro h
    simp only [OpenCLKraskovCMI.estimate]
    unfold OpenCLKraskovCMI.estimateCond
    split_ifs with h1 h2
    · rcases h with h | h | h
      · exact absurd h1.1 h
      · exact absurd h1.2 h
      · exact absurd h2 h
    · rfl
    · rfl

/-- C7 witness: 50 versus 51 realisations fails with ShapeMismatch, and so
does a 4-row input with `n_chunks = 3`. -/
theorem C7_witness :
    ((List.replicate 50 [(0 : ℚ)]).length ≠ (List.replicate 51 [(0 : ℚ)]).length
      ∨ (List.replicate 50 [(0 : ℚ)]).length % 1 ≠ 0)
    ∧ OpenCLKraskovMI.estimate { settings := {} } (fun _ => 0)
        (fun _ => ⟨fun _ _ => 0, fun _ _ => 0, fun _ _ => 0, fun _ _ => 0⟩)
        (List.replicate 50 [0]) (List.replicate 51 [0]) 1 1 1 1
      = .error .shapeMismatch
    ∧ OpenCLKraskovMI.estimate { settings := {} } (fun _ => 0)
        (fun _ => ⟨fun _ _ => 0, fun _ _ => 0, fun _ _ => 0, fun _ _ => 0⟩)
        [[0], [1], [2], [3]] [[0], [1], [2], [3]] 1 1 3 1
      = .error .shapeMismatch := by
  refine ⟨Or.inl (by decide), ?_, ?_⟩
  · exact (C7_shape_mismatch { settings := {} } { settings := {} } (fun _ => 0)
      (fun _ => ⟨fun _ _ => 0, fun _ _ => 0, fun _ _ => 0, fun _ _ => 0⟩)
      (List.replicate 50 [0]) (List.replicate 51 [0]) [] 1 1 1 1 1).1
      (Or.inl (by decide))
  · exact (C7_shape_mismatch { settings := {} } { settings := {} } (fun _ => 0)
      (fun _ => ⟨fun _ _ => 0, fun _ _ => 0, fun _ _ => 0, fun _ _ => 0⟩)
      [[0], [1], [2], [3]] [[0], [1], [2], [3]] [] 1 1 1 3 1).1
      (Or.inr (by decide))
/-- Search radius of point `i` computed by
`OpenCLKraskovCMI._estimate_single_run`: the distance to the `kraskov_k`-th
admissible neighbour in the full joint space. -/
def cmi_run_radius (d : SettingsDict) (rnd : RunRand)
    (var1 var2 cond : List (List ℚ)) (d1 d2 dc n_chunks : ℕ) (i : ℕ) : ℚ :=
  knnRadius (cmi_pointset var1 var2 cond d1 d2 dc rnd d.noiseR)
    (var1.length / n_chunks) d.kkR d.theilerR i

/-- Per-point neighbour count `n_z` of the CMI single run: the range-search
count in the conditioning-only subspace (`count_cnd` in the source). -/
def cmi_run_n_z (d : SettingsDict) (rnd : RunRand)
    (var1 var2 cond : List (List ℚ)) (d1 d2 dc n_chunks : ℕ) (i : ℕ) : ℕ :=
  rangeCount ((cmi_pointset var1 var2 cond d1 d2 dc rnd d.noiseR).map
      (colSlice d1 dc))
    (var1.length / n_chunks) d.theilerR i
    (cmi_run_radius d rnd var1 var2 cond d1 d2 dc n_chunks i)

/-- Per-point neighbour count `n_xz`: source plus conditioning subspace
(`count_src` in the source). -/
def cmi_run_n_xz (d : SettingsDict) (rnd : RunRand)
    (var1 var2 cond : List (List ℚ)) (d1 d2 dc n_chunks : ℕ) (i : ℕ) : ℕ :=
  rangeCount ((cmi_pointset var1 var2 cond d1 d2 dc rnd d.noiseR).map
      (colSlice 0 (d1 + dc)))
    (var1.length / n_chunks) d.theilerR i
    (cmi_run_radius d rnd var1 var2 cond d1 d2 dc n_chunks i)

/-- Per-point neighbour count `n_yz`: target plus conditioning subspace
(`count_tgt` in the source). -/
def cmi_run_n_yz (d : SettingsDict) (rnd : RunRand)
    (var1 var2 cond : List (List ℚ)) (d1 d2 dc n_chunks : ℕ) (i : ℕ) : ℕ :=
  rangeCount ((cmi_pointset var1 var2 cond d1 d2 dc rnd d.noiseR).map
      (colSlice d1 (dc + d2)))
    (var1.length / n_chunks) d.theilerR i
    (cmi_run_radius d rnd var1 var2 cond d1 d2 dc n_chunks i)

/-- C2: the CMI aggregation.  The single-run estimator returns one value per
trial-chunk, and the value of chunk `c` is
`ψ(k) + ⟨ψ(n_z+1) − ψ(n_xz+1) − ψ(n_yz+1)⟩`, the mean running over the
points of that trial-chunk, with `n_z`, `n_xz`, `n_yz` the per-point
range-search counts in the conditioning-only, source+conditioning and
target+conditioning subspaces.  (`_calculate_cmi` itself is modelled from
the spec, `estimators_gpu.py` not being among the verified files.)  The
aggregation of `opencl_kraskov` in `src/idtxl/estimators_cmi.py` computes
the same formula, its mean running over the whole (single-chunk by default)
count arrays. -/
theorem C2_cmi_aggregation (ψ : ℕ → ℚ) (d : SettingsDict) (rnd : RunRand)
    (var1 var2 cond : List (List ℚ)) (d1 d2 dc n_chunks : ℕ)
    (c : ℕ) (hc : c < n_chunks) (kk : ℕ) (cc c1 c2 : List ℕ)
    (h1 : cc.length = c1.length) (h2 : cc.length = c2.length) :
    (estimate_single_run_cmi ψ d rnd var1 var2 cond d1 d2 dc n_chunks).cmi.length
        = n_chunks
    ∧ (estimate_single_run_cmi ψ d rnd var1 var2 cond d1 d2 dc n_chunks).cmi.getD c 0
        = ψ d.kkR
          + (((List.range (var1.length / n_chunks)).map (fun i =>
              ψ (cmi_run_n_z d rnd var1 var2 cond d1 d2 dc n_chunks
                  (c * (var1.length / n_chunks) + i) + 1)
              - ψ (cmi_run_n_xz d rnd var1 var2 cond d1 d2 dc n_chunks
                  (c * (var1.length / n_chunks) + i) + 1)
              - ψ (cmi_run_n_yz d rnd var1 var2 cond d1 d2 dc n_chunks
                  (c * (var1.length / n_chunks) + i) + 1))).sum)
            / ((var1.length / n_chunks : ℕ) : ℚ)
    ∧ opencl_kraskov_cmi ψ kk cc c1 c2
        = ψ kk + (((List.range cc.length).map (fun i =>
            ψ (cc.getD i 0 + 1) - ψ (c1.getD i 0 + 1) - ψ (c2.getD i 0 + 1))).sum)
            / (cc.length : ℚ) := by
  refine ⟨?_, ?_, ?_⟩
  · unfold estimate_single_run_cmi
    split_ifs <;> simp [calculate_cmi]
  · unfold estimate_single_run_cmi
    split_ifs
    all_goals
      simp only [calculate_cmi]
      rw [getD_map_range _ hc]
      simp only [cmi_run_n_z, cmi_run_n_xz, cmi_run_n_yz, cmi_run_radius]
  · unfold opencl_kraskov_cmi
    rw [zip3_map_sum (fun a b e => ψ (a + 1) - ψ (b + 1) - ψ (e + 1)) cc c1 c2 h1 h2]

/-- C2 witness: the aggregation laws at a concrete chunk index and concrete
count arrays. -/
theorem C2_witness :
    (0 : ℕ) < 1
    ∧ ([(2 : ℕ), 3] : List ℕ).length = ([(1 : ℕ), 1] : List ℕ).length
    ∧ (estimate_single_run_cmi (fun n => (n : ℚ)) { } ⟨fun _ _ => 0, fun _ _ => 0,
        fun _ _ => 0, fun _ _ => 0⟩ [[0], [1]] [[0], [2]] [[0], [3]] 1 1 1 1).cmi.getD 0 0
      = ((({ } : SettingsDict).kkR : ℚ))
          + (((List.range (([[ (0 : ℚ) ], [1]] : List (List ℚ)).length / 1)).map (fun i =>
              ((cmi_run_n_z { } ⟨fun _ _ => 0, fun _ _ => 0,
                  fun _ _ => 0, fun _ _ => 0⟩ [[0], [1]] [[0], [2]] [[0], [3]] 1 1 1 1
                  (0 * (([[ (0 : ℚ) ], [1]] : List (List ℚ)).length / 1) + i) + 1 : ℕ) : ℚ)
              - ((cmi_run_n_xz { } ⟨fun _ _ => 0, fun _ _ => 0,
                  fun _ _ => 0, fun _ _ => 0⟩ [[0], [1]] [[0], [2]] [[0], [3]] 1 1 1 1
                  (0 * (([[ (0 : ℚ) ], [1]] : List (List ℚ)).length / 1) + i) + 1 : ℕ) : ℚ)
              - ((cmi_run_n_yz { } ⟨fun _ _ => 0, fun _ _ => 0,
                  fun _ _ => 0, fun _ _ => 0⟩ [[0], [1]] [[0], [2]] [[0], [3]] 1 1 1 1
                  (0 * (([[ (0 : ℚ) ], [1]] : List (List ℚ)).length / 1) + i) + 1 : ℕ) : ℚ))).sum)
            / ((([[ (0 : ℚ) ], [1]] : List (List ℚ)).length / 1 : ℕ) : ℚ)
    ∧ opencl_kraskov_cmi (fun n => (n : ℚ)) 4 [2, 3] [1, 1] [1, 2]
      = ((4 : ℕ) : ℚ) + (((List.range ([(2 : ℕ), 3] : List ℕ).length).map (fun i =>
          ((([(2 : ℕ), 3] : List ℕ).getD i 0 + 1 : ℕ) : ℚ)
          - ((([(1 : ℕ), 1] : List ℕ).getD i 0 + 1 : ℕ) : ℚ)
          - ((([(1 : ℕ), 2] : List ℕ).getD i 0 + 1 : ℕ) : ℚ))).sum)
          / (([(2 : ℕ), 3] : List ℕ).length : ℚ) := by
  refine ⟨by decide, by decide, ?_, ?_⟩
  · exact (C2_cmi_aggregation (fun n => (n : ℚ)) { } ⟨fun _ _ => 0, fun _ _ => 0,
      fun _ _ => 0, fun _ _ => 0⟩ [[0], [1]] [[0], [2]] [[0], [3]] 1 1 1 1
      0 (by decide) 4 [2, 3] [1, 1] [1, 2] (by decide) (by decide)).2.1
  · exact (C2_cmi_aggregation (fun n => (n : ℚ)) { } ⟨fun _ _ => 0, fun _ _ => 0,
      fun _ _ => 0, fun _ _ => 0⟩ [[0], [1]] [[0], [2]] [[0], [3]] 1 1 1 1
      0 (by decide) 4 [2, 3] [1, 1] [1, 2] (by decide) (by decide)).2.2
/-- C4: in debug mode, every array returned by `_estimate_single_run` is
truncated back to the true (pre-padding) length (`[:signallength]`): the
count arrays are exactly the per-subspace counts of the true rows, in
order, and the returned distances are exactly one raw k-NN distance (the
first-neighbour distance, block 0 of the flat device buffer) per true row
— no padding-row entry appears in any returned array.  Both the MI return
`(distances, count_var1, count_var2)` and the CMI return
`(distances, count_cnd, count_src, count_tgt)` are covered. -/
theorem C4_debug_truncation (ψ : ℕ → ℚ) (d : SettingsDict) (rnd : RunRand)
    (var1 var2 cond : List (List ℚ)) (d1 d2 dc n_chunks : ℕ)
    (hdbg : d.debugR = true) (hkk : 0 < d.kkR) :
    (estimate_single_run_mi ψ d rnd var1 var2 d1 d2 n_chunks).dbg
      = some ((List.range var1.length).map (fun i =>
            knnRadius (mi_pointset var1 var2 d1 d2 rnd d.noiseR)
              (var1.length / n_chunks) 1 d.theilerR i),
          (List.range var1.length).map (fun i =>
            rangeCount ((mi_pointset var1 var2 d1 d2 rnd d.noiseR).map
                (colSlice 0 d1)) (var1.length / n_chunks) d.theilerR i
              (knnRadius (mi_pointset var1 var2 d1 d2 rnd d.noiseR)
                (var1.length / n_chunks) d.kkR d.theilerR i)),
          (List.range var1.length).map (fun i =>
            rangeCount ((mi_pointset var1 var2 d1 d2 rnd d.noiseR).map
                (colSlice d1 d2)) (var1.length / n_chunks) d.theilerR i
              (knnRadius (mi_pointset var1 var2 d1 d2 rnd d.noiseR)
                (var1.length / n_chunks) d.kkR d.theilerR i)))
    ∧ (estimate_single_run_cmi ψ d rnd var1 var2 cond d1 d2 dc n_chunks).dbg
      = some ((List.range var1.length).map (fun i =>
            knnRadius (cmi_pointset var1 var2 cond d1 d2 dc rnd d.noiseR)
              (var1.length / n_chunks) 1 d.theilerR i),
          (List.range var1.length).map (fun i =>
            cmi_run_n_z d rnd var1 var2 cond d1 d2 dc n_chunks i),
          (List.range var1.length).map (fun i =>
            cmi_run_n_xz d rnd var1 var2 cond d1 d2 dc n_chunks i),
          (List.range var1.length).map (fun i =>
            cmi_run_n_yz d rnd var1 var2 cond d1 d2 dc n_chunks i)) := by
  constructor
  · unfold estimate_single_run_mi
    rw [if_pos hdbg]
    rw [distancesFlat_take_true _ _ _ _ hkk,
      take_range_map _ (Nat.le_add_right _ _),
      take_range_map _ (Nat.le_add_right _ _)]
  · unfold estimate_single_run_cmi
    rw [if_pos hdbg]
    rw [distancesFlat_take_true _ _ _ _ hkk,
      take_range_map _ (Nat.le_add_right _ _),
      take_range_map _ (Nat.le_add_right _ _),
      take_range_map _ (Nat.le_add_right _ _)]
    simp only [cmi_run_n_z, cmi_run_n_xz, cmi_run_n_yz, cmi_run_radius]

/-- C4 witness: with `debug` set and the default `kraskov_k = 4`, the truncated
debug arrays at a concrete input. -/
theorem C4_witness :
    ({ debug := some true } : SettingsDict).debugR = true
    ∧ (0 : ℕ) < ({ debug := some true } : SettingsDict).kkR
    ∧ (estimate_single_run_mi (fun n => (n : ℚ)) { debug := some true }
        ⟨fun _ _ => 0, fun _ _ => 0, fun _ _ => 0, fun _ _ => 0⟩
        [[0], [1]] [[0], [2]] 1 1 1).dbg
      = some ((List.range ([[ (0 : ℚ) ], [1]] : List (List ℚ)).length).map (fun i =>
            knnRadius (mi_pointset [[0], [1]] [[0], [2]] 1 1
                ⟨fun _ _ => 0, fun _ _ => 0, fun _ _ => 0, fun _ _ => 0⟩
                ({ debug := some true } : SettingsDict).noiseR)
              (([[ (0 : ℚ) ], [1]] : List (List ℚ)).length / 1) 1
              ({ debug := some true } : SettingsDict).theilerR i),
          (List.range ([[ (0 : ℚ) ], [1]] : List (List ℚ)).length).map (fun i =>
            rangeCount ((mi_pointset [[0], [1]] [[0], [2]] 1 1
                  ⟨fun _ _ => 0, fun _ _ => 0, fun _ _ => 0, fun _ _ => 0⟩
                  ({ debug := some true } : SettingsDict).noiseR).map
                (colSlice 0 1))
              (([[ (0 : ℚ) ], [1]] : List (List ℚ)).length / 1)
              ({ debug := some true } : SettingsDict).theilerR i
              (knnRadius (mi_pointset [[0], [1]] [[0], [2]] 1 1
                  ⟨fun _ _ => 0, fun _ _ => 0, fun _ _ => 0, fun _ _ => 0⟩
                  ({ debug := some true } : SettingsDict).noiseR)
                (([[ (0 : ℚ) ], [1]] : List (List ℚ)).length / 1)
                ({ debug := some true } : SettingsDict).kkR
                ({ debug := some true } : SettingsDict).theilerR i)),
          (List.range ([[ (0 : ℚ) ], [1]] : List (List ℚ)).length).map (fun i =>
            rangeCount ((mi_pointset [[0], [1]] [[0], [2]] 1 1
                  ⟨fun _ _ => 0, fun _ _ => 0, fun _ _ => 0, fun _ _ => 0⟩
                  ({ debug := some true } : SettingsDict).noiseR).map
                (colSlice 1 1))
              (([[ (0 : ℚ) ], [1]] : List (List ℚ)).length / 1)
              ({ debug := some true } : SettingsDict).theilerR i
              (knnRadius (mi_pointset [[0], [1]] [[0], [2]] 1 1
                  ⟨fun _ _ => 0, fun _ _ => 0, fun _ _ => 0, fun _ _ => 0⟩
                  ({ debug := some true } : SettingsDict).noiseR)
                (([[ (0 : ℚ) ], [1]] : List (List ℚ)).length / 1)
                ({ debug := some true } : SettingsDict).kkR
                ({ debug := some true } : SettingsDict).theilerR i))) := by
  refine ⟨rfl, by decide, ?_⟩
  exact (C4_debug_truncation (fun n => (n : ℚ)) { debug := some true }
    ⟨fun _ _ => 0, fun _ _ => 0, fun _ _ => 0, fun _ _ => 0⟩
    [[0], [1]] [[0], [2]] [[0], [1]] 1 1 1 1 rfl (by decide)).1
theorem zipWith_getD {α : Type} (f : α → α → α) (d : α) :
    ∀ (a b : List α) (i : ℕ), i < a.length → i < b.length →
      (List.zipWith f a b).getD i d = f (a.getD i d) (b.getD i d) := by
  intro a
  induction a with
  | nil =>
    intro b i hi _
    simp at hi
  | cons x a ih =>
    intro b i hi hb
    cases b with
    | nil => simp at hb
    | cons y b =>
      cases i with
      | zero => simp
      | succ i => simpa using ih b i (by simpa using hi) (by simpa using hb)

/-- Row `var.length + r` of a padded array is the `r`-th synthetic row:
sentinel plus jitter for every of its `dim` entries. -/
theorem pad_var_row (var : List (List ℚ)) (dim : ℕ) (jit : ℕ → ℕ → ℚ)
    (r : ℕ) (hr : r < pad_size var.length) :
    (pad_var var dim jit).getD (var.length + r) []
      = (List.range dim).map (fun c => 999999 + (1 / 10) * jit r c) := by
  unfold pad_var padRows
  rw [List.getD_append_right var _ [] _ (Nat.le_add_right _ _)]
  have hidx : var.length + r - var.length = r := by omega
  rw [hidx, getD_map_range _ hr]

theorem pad_var_length (var : List (List ℚ)) (dim : ℕ) (jit : ℕ → ℕ → ℚ) :
    (pad_var var dim jit).length = var.length + pad_size var.length := by
  unfold pad_var padRows
  simp

/-- Padding row `r` of the assembled (pre-noise) MI point set. -/
theorem hstack_pad_row (var1 var2 : List (List ℚ)) (d1 d2 : ℕ)
    (j1 j2 : ℕ → ℕ → ℚ) (hlen : var1.length = var2.length)
    (r : ℕ) (hr : r < pad_size var1.length) :
    (hstack2 (pad_var var1 d1 j1) (pad_var var2 d2 j2)).getD (var1.length + r) []
      = (List.range d1).map (fun c => 999999 + (1 / 10) * j1 r c)
        ++ (List.range d2).map (fun c => 999999 + (1 / 10) * j2 r c) := by
  unfold hstack2
  rw [zipWith_getD _ [] _ _ _ (by rw [pad_var_length]; omega)
      (by rw [pad_var_length, ← hlen]; omega),
    pad_var_row _ _ _ _ hr, hlen, pad_var_row _ _ _ _ (by rw [← hlen]; exact hr)]

/-- With a positive noise level, row `i` of the point set built by
`_estimate_single_run` is the corresponding row of the padded, concatenated
data with `lvl * gauss i c` added to entry `c` — true-row or padding-row
alike. -/
theorem mi_pointset_pos_row (var1 var2 : List (List ℚ)) (d1 d2 : ℕ)
    (rnd : RunRand) {lvl : ℚ} (hlvl : 0 < lvl) {i : ℕ}
    (hi : i < (hstack2 (pad_var var1 d1 rnd.jit1) (pad_var var2 d2 rnd.jit2)).length) :
    (mi_pointset var1 var2 d1 d2 rnd lvl).getD i []
      = mapIdxFrom (fun c x => x + lvl * rnd.gauss i c) 0
          ((hstack2 (pad_var var1 d1 rnd.jit1) (pad_var var2 d2 rnd.jit2)).getD i []) := by
  unfold mi_pointset addNoise
  rw [if_pos hlvl, mapIdxFrom_getD _ [] [] _ 0 i hi]
  simp

/-- Streams for the C8 counterexample: zero padding jitter, and a constant
standard-normal draw of 1 for the dithering step. -/
def cexRnd : RunRand :=
  ⟨fun _ _ => 0, fun _ _ => 0, fun _ _ => 0, fun _ _ => 1⟩

set_option maxRecDepth 20000 in
theorem cex_len :
    (1 : ℕ) < (hstack2 (pad_var [[ (0 : ℚ) ]] 1 cexRnd.jit1)
      (pad_var [[ (0 : ℚ) ]] 1 cexRnd.jit2)).length := by
  unfold hstack2
  rw [List.length_zipWith, pad_var_length, pad_var_length]
  decide

/-- C8 counterexample: at the one-point input `var1 = var2 = [[0]]` with
`noise_level = 1`, zero padding jitter and the constant standard-normal
draw 1, the source's point set carries the noise into padding row 1 (its
entries are `1000000`), while the construction described by the claim —
noise added to each variable array before concatenation — leaves padding
row 1 at the bare sentinel `999999`; the two point sets differ.  So noise
is not added to the variable arrays before concatenation. -/
theorem C8_counterexample :
    (mi_pointset [[0]] [[0]] 1 1 cexRnd 1).getD 1 [] = [1000000, 1000000]
    ∧ (mi_pointset_claim [[0]] [[0]] 1 1 cexRnd 1).getD 1 [] = [999999, 999999]
    ∧ mi_pointset [[0]] [[0]] 1 1 cexRnd 1
      ≠ mi_pointset_claim [[0]] [[0]] 1 1 cexRnd 1 := by
  have hrow := hstack_pad_row [[ (0 : ℚ) ]] [[ (0 : ℚ) ]] 1 1
    cexRnd.jit1 cexRnd.jit2 rfl 0 (by decide)
  simp only [List.length_cons, List.length_nil, Nat.zero_add, Nat.add_zero] at hrow
  have h1 : (mi_pointset [[0]] [[0]] 1 1 cexRnd 1).getD 1 [] = [1000000, 1000000] := by
    rw [mi_pointset_pos_row [[0]] [[0]] 1 1 cexRnd (by norm_num) cex_len, hrow]
    simp [mapIdxFrom, cexRnd]
    norm_num
  have hA : addNoise [[ (0 : ℚ) ]] cexRnd.gauss 1 = [[1]] := by
    unfold addNoise
    rw [if_pos (by norm_num)]
    simp [mapIdxFrom, cexRnd]
  have h2 : (mi_pointset_claim [[0]] [[0]] 1 1 cexRnd 1).getD 1 []
      = [999999, 999999] := by
    unfold mi_pointset_claim
    rw [hA]
    have hrow2 := hstack_pad_row [[ (1 : ℚ) ]] [[ (1 : ℚ) ]] 1 1
      cexRnd.jit1 cexRnd.jit2 rfl 0 (by decide)
    simp only [List.length_cons, List.length_nil, Nat.zero_add, Nat.add_zero] at hrow2
    rw [hrow2]
    simp [cexRnd]
  refine ⟨h1, h2, fun h => ?_⟩
  rw [h, h2] at h1
  simp at h1
/-- C8 (amended): in `_estimate_single_run`, when `noise_level > 0` the
zero-mean Gaussian noise scaled by `noise_level` is added entrywise to the
padded, concatenated point set — padding rows included — after padding and
concatenation, not to the input variable arrays before concatenation; when
`noise_level == 0` the noise step is skipped entirely.  In `opencl_kraskov`
(`src/idtxl/estimators_cmi.py`) the noise is added to each variable array
in place before concatenation, but the step runs unconditionally: with
`noise_level == 0` it adds noise scaled by zero, leaving the values
unchanged rather than skipping the step. -/
theorem C8_noise_placement (var1 var2 : List (List ℚ)) (d1 d2 : ℕ)
    (rnd : RunRand) (lvl : ℚ) (g : ℕ → ℕ → ℚ) :
    (0 < lvl → ∀ i : ℕ,
      i < (hstack2 (pad_var var1 d1 rnd.jit1) (pad_var var2 d2 rnd.jit2)).length →
      (mi_pointset var1 var2 d1 d2 rnd lvl).getD i []
        = mapIdxFrom (fun c x => x + lvl * rnd.gauss i c) 0
            ((hstack2 (pad_var var1 d1 rnd.jit1)
              (pad_var var2 d2 rnd.jit2)).getD i []))
    ∧ (lvl = 0 → mi_pointset var1 var2 d1 d2 rnd lvl
        = hstack2 (pad_var var1 d1 rnd.jit1) (pad_var var2 d2 rnd.jit2))
    ∧ opencl_kraskov_add_noise var1 g 0 = var1 := by
  refine ⟨fun hlvl i hi => mi_pointset_pos_row var1 var2 d1 d2 rnd hlvl hi,
    fun h0 => ?_, opencl_kraskov_add_noise_zero var1 g⟩
  unfold mi_pointset
  rw [h0, addNoise_zero]

/-- C8 witness: the amended noise-placement law at the counterexample's
concrete input. -/
theorem C8_witness :
    (0 : ℚ) < 1
    ∧ (1 : ℕ) < (hstack2 (pad_var [[ (0 : ℚ) ]] 1 cexRnd.jit1)
        (pad_var [[ (0 : ℚ) ]] 1 cexRnd.jit2)).length
    ∧ (mi_pointset [[0]] [[0]] 1 1 cexRnd 1).getD 1 []
        = mapIdxFrom (fun c x => x + 1 * cexRnd.gauss 1 c) 0
            ((hstack2 (pad_var [[ (0 : ℚ) ]] 1 cexRnd.jit1)
              (pad_var [[ (0 : ℚ) ]] 1 cexRnd.jit2)).getD 1 [])
    ∧ opencl_kraskov_add_noise [[ (0 : ℚ) ]] cexRnd.gauss 0 = [[0]] := by
  refine ⟨by norm_num, cex_len, ?_, ?_⟩
  · exact (C8_noise_placement [[0]] [[0]] 1 1 cexRnd 1 cexRnd.gauss).1
      (by norm_num) 1 cex_len
  · exact (C8_noise_placement [[0]] [[0]] 1 1 cexRnd 1 cexRnd.gauss).2.2
